import Mathlib

/-!
# Portfolio risk simulation: embedding of `portfolio_simulation.cpp`

`double` values are modelled by the elements of an arbitrary type `α` that carries the
arithmetic the code uses (for the exact-arithmetic statements a linearly ordered field,
for example `ℚ` or `ℝ`).  `std::vector` is a `List`; every element access goes through
`Option`, where `none` stands for an access outside the vector (undefined behaviour in
the C++ program).  Counted `for` loops are `forLoop`.
-/

namespace PortfolioSim

/-! ## Loops and element access -/

/-- Counted loop `for (i = start; i < start + count; ++i) s = body i s`; the loop stops
with `none` as soon as one iteration does. -/
def forLoop {σ : Type} (body : Nat → σ → Option σ) : Nat → Nat → σ → Option σ
  | _, 0, s => some s
  | i, n + 1, s => (body i s).bind (forLoop body (i + 1) n)

/-- Assignment `xs[i] = v` on a vector; `none` when `i` is outside `xs`. -/
def vset {α : Type} (xs : List α) (i : Nat) (v : α) : Option (List α) :=
  if i < xs.length then some (xs.set i v) else none

/-- Read of `S[i][j]`; `none` when row `i` or column `j` does not exist. -/
def mget {α : Type} (S : List (List α)) (i j : Nat) : Option α := do
  (← S[i]?)[j]?

/-- Assignment `S[i][j] = v`; `none` when row `i` or column `j` does not exist. -/
def mset {α : Type} (S : List (List α)) (i j : Nat) (v : α) : Option (List (List α)) := do
  vset S i (← vset (← S[i]?) j v)

/-! ## The program -/

/-- The struct `Data`: ticker names of the CSV header and the `T x K` matrix of returns. -/
structure Data (α : Type) where
  tickers : List String
  returns : List (List α)

/-- Repeated `std::getline(stream, cell, delim)` on a stream that holds the characters
`s`, until the call fails: the cells read, in order.  A call on an exhausted stream fails,
so no cell is produced for the empty text after a final delimiter. -/
def getlines (delim : Char) : List Char → List (List Char)
  | [] => []
  | c :: cs =>
    if c = delim then [] :: getlines delim cs
    else
      match getlines delim cs with
      | [] => [[c]]
      | tok :: toks => (c :: tok) :: toks

/-- The body of the row loop of `read_returns_csv` (lines 55-65) on one line: the first
cell (the date) is skipped, an empty cell gives `0.0`, any other cell goes through
`stod`.  `stod` is the library function; `Except.error` is the exception it throws. -/
def read_row {α : Type} [Zero α] (stod : String → Except String α) (line : List Char) :
    Except String (List α) :=
  ((getlines ',' line).drop 1).mapM (fun c =>
    if c.isEmpty then pure 0 else stod (String.mk c))

/-- The function `read_returns_csv` (lines 35-71) on the characters of the file.
`Except.error` is a thrown exception; `none` is `header.begin() + 1` on an empty header
(first line empty), which is outside the vector.  Rows that come out empty are not
stored. -/
def read_returns_csv {α : Type} [Zero α] (stod : String → Except String α) (file : String) :
    Option (Except String (Data α)) :=
  match getlines '\n' file.toList with
  | [] => some (.error "Empty CSV file.")
  | line :: rest =>
    match getlines ',' line with
    | [] => none
    | _ :: names =>
      some (do
        let rows ← rest.mapM (read_row stod)
        pure ⟨names.map String.mk, rows.filter (fun row => !row.isEmpty)⟩)

/-- The function `mean_vec` (lines 76-88). -/
def mean_vec {α : Type} [Zero α] [Add α] [Div α] [NatCast α]
    (R : List (List α)) : Option (List α) := do
  let T := R.length
  let K := (← R[0]?).length
  let mu : List α := List.replicate K 0
  let mu ← forLoop (fun t mu =>
    forLoop (fun k mu => do
      let x ← mget R t k
      let m ← mu[k]?
      vset mu k (m + x)) 0 K mu) 0 T mu
  forLoop (fun k mu => do
    let m ← mu[k]?
    vset mu k (m / (T : α))) 0 K mu

/-- The function `cov_mat` (lines 93-115).  `T - 1` is computed on `size_t`; with `T = 0`
the read of `R[0]` has already failed, so natural-number subtraction agrees with it on
every path that reaches the division. -/
def cov_mat {α : Type} [Zero α] [Add α] [Sub α] [Mul α] [Div α] [NatCast α]
    (R : List (List α)) (mu : List α) : Option (List (List α)) := do
  let T := R.length
  let K := (← R[0]?).length
  let S : List (List α) := List.replicate K (List.replicate K 0)
  let S ← forLoop (fun t S =>
    forLoop (fun i S => do
      let xi := (← mget R t i) - (← mu[i]?)
      forLoop (fun j S => do
        let xj := (← mget R t j) - (← mu[j]?)
        mset S i j ((← mget S i j) + xi * xj)) i (K - i) S) 0 K S) 0 T S
  let denom : α := ((T - 1 : Nat) : α)
  forLoop (fun i S =>
    forLoop (fun j S => do
      let S ← mset S i j ((← mget S i j) / denom)
      mset S j i (← mget S i j)) i (K - i) S) 0 K S

/-- The function `dot` (lines 137-141): the loop runs over the indices of `a`. -/
def dot {α : Type} [Zero α] [Add α] [Mul α] (a b : List α) : Option α :=
  forLoop (fun i s => do
    pure (s + (← a[i]?) * (← b[i]?))) 0 a.length 0

/-- The function `quad` (lines 146-157): both loops run over the indices of `w`. -/
def quad {α : Type} [Zero α] [Add α] [Mul α] (w : List α) (S : List (List α)) : Option α :=
  let K := w.length
  forLoop (fun i s => do
    let tmp ← forLoop (fun j tmp => do
      pure (tmp + (← mget S i j) * (← w[j]?))) 0 K 0
    pure (s + (← w[i]?) * tmp)) 0 K 0

/-- The function `random_weights` (lines 120-132).  The generator and the distribution
`U` belong to the standard library: `U` maps a generator state to the number drawn and
the state that follows. -/
def random_weights {α G : Type} [LinearOrderedField α]
    (U : G → α × G) (K : Nat) (rng : G) : Option (List α × G) := do
  let w : List α := List.replicate K 0
  let sum : α := 0
  let (w, sum, rng) ← forLoop (fun k (st : List α × α × G) => do
    let (w, sum, rng) := st
    let (u, rng) := U rng
    let w ← vset w k (u + 1e-9)
    let sum := sum + (← w[k]?)
    pure (w, sum, rng)) 0 K (w, sum, rng)
  let w ← forLoop (fun k w => do
    vset w k ((← w[k]?) / sum)) 0 K w
  pure (w, rng)

/-- The annualisation block of `main` (lines 181-190): copies of `mu` and `S`, both
multiplied by `days = 252` when the flag is set.  The two index loops run to `S.size()`. -/
def annualization {α : Type} [LinearOrderedField α]
    (mu : List α) (S : List (List α)) (annualize : Bool) :
    Option (List α × List (List α)) := do
  let days : α := 252.0
  let mu_ann := mu
  let S_ann := S
  if annualize then
    let mu_ann := mu_ann.map (fun m => m * days)
    let S_ann ← forLoop (fun i S_ann =>
      forLoop (fun j S_ann => do
        mset S_ann i j ((← mget S_ann i j) * days)) 0 S.length S_ann) 0 S.length S_ann
    pure (mu_ann, S_ann)
  else
    pure (mu_ann, S_ann)

/-- One output line of `portfolios.csv`. -/
structure Row (α : Type) where
  sharpe : α
  ret : α
  vol : α
  weights : List α

/-- The body of the simulation loop of `main` after the weights are drawn
(lines 202-205).  `sqrt` is the library square root. -/
def trial {α : Type} [LinearOrderedField α] (sqrt : α → α)
    (w mu mu_ann : List α) (S S_ann : List (List α)) (rf : α) (annualize : Bool) :
    Option (Row α) := do
  let ret ← dot w (if annualize then mu_ann else mu)
  let var ← quad w (if annualize then S_ann else S)
  let vol := sqrt (max var 0.0)
  let sharpe := (if annualize then ret - rf else ret) / (vol + 1e-12)
  pure ⟨sharpe, ret, vol, w⟩

/-- How a run of `main` ends: with exit status 1 and a message, or with the header and
the rows written to `portfolios.csv`. -/
inductive Exit (α : Type) where
  | failure (msg : String)
  | success (header : List String) (rows : List (Row α))

/-- The function `main` after its arguments are parsed and the CSV is loaded
(lines 171-213).  `rng42` is the state of `mt19937 rng(42)`; `N` is an `int`, so the
loop `for (n = 0; n < N; ++n)` runs `N.toNat` times. -/
def main {α G : Type} [LinearOrderedField α] (sqrt : α → α) (U : G → α × G) (rng42 : G)
    (D : Data α) (N : Int) (rf : α) (annualize : Bool) : Option (Exit α) := do
  if D.returns.isEmpty then
    pure (Exit.failure "No data in returns file.")
  else
    let mu ← mean_vec D.returns
    let S ← cov_mat D.returns mu
    let (mu_ann, S_ann) ← annualization mu S annualize
    let header := ["sharpe", "ret", "vol"] ++ D.tickers
    let (_, rows) ← forLoop (fun _ (st : G × List (Row α)) => do
      let (rng, rows) := st
      let (w, rng) ← random_weights U D.tickers.length rng
      let row ← trial sqrt w mu mu_ann S S_ann rf annualize
      pure (rng, rows ++ [row])) 0 N.toNat (rng42, [])
    pure (Exit.success header rows)

/-! ## Vocabulary of the statements -/

/-- Left-to-right accumulation `((0 + x 0) + x 1) + ... + x (n-1)`, the value a loop
`s += x i` leaves in `s`. -/
def psum {α : Type} [Zero α] [Add α] (x : Nat → α) : Nat → α
  | 0 => 0
  | n + 1 => psum x n + x n

/-- The entry `R[t][k]` of a matrix, `0` outside of it. -/
def entry {α : Type} [Zero α] (R : List (List α)) (t k : Nat) : α :=
  (R.getD t []).getD k 0

/-- The vector `xs` has length `K` and holds `f k` at every index `k < K`. -/
def VRep {α : Type} (xs : List α) (K : Nat) (f : Nat → α) : Prop :=
  xs.length = K ∧ ∀ k, k < K → xs[k]? = some (f k)

/-- The matrix `S` has `T` rows of length `K` and holds `f i j` at every `(i, j)`. -/
def MRep {α : Type} (S : List (List α)) (T K : Nat) (f : Nat → Nat → α) : Prop :=
  S.length = T ∧ (∀ row ∈ S, row.length = K) ∧
    ∀ i j, i < T → j < K → mget S i j = some (f i j)

/-- The text of a CSV line made of the given cells, separated by `delim`. -/
def joinCells (delim : Char) : List (List Char) → List Char
  | [] => []
  | [c] => c
  | c :: c2 :: cs => c ++ delim :: joinCells delim (c2 :: cs)

/-- State of the generator after `n` draws. -/
def rngAfter {α G : Type} (U : G → α × G) : Nat → G → G
  | 0, g => g
  | n + 1, g => (U (rngAfter U n g)).2

/-- The `k`-th number drawn from the generator started in state `g` (counting from 0). -/
def draw {α G : Type} (U : G → α × G) (g : G) (k : Nat) : α :=
  (U (rngAfter U k g)).1

/-! ## Loop invariants and representation lemmas -/

theorem forLoop_inv {σ : Type} (P : Nat → σ → Prop) (body : Nat → σ → Option σ) :
    ∀ (n lo : Nat) (s : σ), P lo s →
      (∀ i s, lo ≤ i → i < lo + n → P i s → ∃ s', body i s = some s' ∧ P (i + 1) s') →
      ∃ s', forLoop body lo n s = some s' ∧ P (lo + n) s' := by
  intro n
  induction n with
  | zero => intro lo s h0 _; exact ⟨s, rfl, by simpa using h0⟩
  | succ n ih =>
    intro lo s h0 hstep
    obtain ⟨s1, hb, h1⟩ := hstep lo s (Nat.le_refl _) (by omega) h0
    obtain ⟨s2, hl, h2⟩ :=
      ih (lo + 1) s1 h1 (fun i s hi hlt hP => hstep i s (by omega) (by omega) hP)
    refine ⟨s2, ?_, ?_⟩
    · simp [forLoop, hb, hl]
    · have : lo + (n + 1) = lo + 1 + n := by omega
      rw [this]; exact h2

theorem ite_upd_lt {α : Type} (k c : Nat) (v : α) (g f : Nat → α) (hv : v = g k) :
    (if c = k then v else if c < k then g c else f c) = if c < k + 1 then g c else f c := by
  by_cases h1 : c = k
  · subst h1; simp [hv]
  · by_cases h2 : c < k
    · rw [if_neg h1, if_pos h2, if_pos (by omega)]
    · rw [if_neg h1, if_neg h2, if_neg (by omega)]

theorem VRep.vcongr {α : Type} {xs : List α} {K : Nat} {f g : Nat → α}
    (h : VRep xs K f) (hfg : ∀ k, k < K → f k = g k) : VRep xs K g :=
  ⟨h.1, fun k hk => by rw [h.2 k hk, hfg k hk]⟩

theorem VRep.vupd {α : Type} {xs : List α} {K : Nat} {f : Nat → α}
    (h : VRep xs K f) {k : Nat} (hk : k < K) (v : α) :
    ∃ ys, vset xs k v = some ys ∧ VRep ys K (fun c => if c = k then v else f c) := by
  obtain ⟨hl, hf⟩ := h
  refine ⟨xs.set k v, by simp [vset, hl, hk], by simp [hl], ?_⟩
  intro c hc
  by_cases hck : c = k
  · subst hck; simp [hl, hc]
  · have : k ≠ c := fun h => hck h.symm
    simp [List.getElem?_set_ne this, hf c hc, hck]

theorem VRep.vreplicate {α : Type} (K : Nat) (v : α) :
    VRep (List.replicate K v) K (fun _ => v) := by
  refine ⟨by simp, ?_⟩
  intro k hk
  simp [List.getElem?_replicate, hk]

theorem VRep.of_list {α : Type} [Zero α] (xs : List α) :
    VRep xs xs.length (fun k => xs.getD k 0) := by
  refine ⟨rfl, ?_⟩
  intro k hk
  simp [List.getD_eq_getElem?_getD, hk]

theorem MRep.mcongr {α : Type} {S : List (List α)} {T K : Nat} {f g : Nat → Nat → α}
    (h : MRep S T K f) (hfg : ∀ i j, i < T → j < K → f i j = g i j) : MRep S T K g :=
  ⟨h.1, h.2.1, fun i j hi hj => by rw [h.2.2 i j hi hj, hfg i j hi hj]⟩

theorem MRep.row {α : Type} {S : List (List α)} {T K : Nat} {f : Nat → Nat → α}
    (h : MRep S T K f) {i : Nat} (hi : i < T) :
    ∃ row, S[i]? = some row ∧ VRep row K (f i) := by
  obtain ⟨hl, hrow, hf⟩ := h
  have hi' : i < S.length := by omega
  refine ⟨S[i], by simp [hi'], hrow _ (List.getElem_mem _), ?_⟩
  intro j hj
  have := hf i j hi hj
  simpa [mget, hi'] using this

theorem MRep.mupd {α : Type} {S : List (List α)} {T K : Nat} {f : Nat → Nat → α}
    (h : MRep S T K f) {i j : Nat} (hi : i < T) (hj : j < K) (v : α) :
    ∃ S', mset S i j v = some S' ∧
      MRep S' T K (fun a b => if a = i ∧ b = j then v else f a b) := by
  obtain ⟨row, hrow, hrep⟩ := h.row hi
  obtain ⟨row', hset, hrep'⟩ := hrep.vupd hj v
  obtain ⟨hl, hrows, hf⟩ := h
  have hi' : i < S.length := by omega
  have hS : vset S i row' = some (S.set i row') := by simp [vset, hi']
  refine ⟨S.set i row', by simp [mset, hrow, hset, hS], by simp [hl], ?_, ?_⟩
  · intro r hr
    rcases List.mem_or_eq_of_mem_set hr with h1 | h1
    · exact hrows r h1
    · rw [h1]; exact hrep'.1
  · intro a b ha hb
    by_cases hai : a = i
    · subst hai
      simp [mget, hi', hrep'.2 b hb]
    · have : i ≠ a := fun h => hai h.symm
      have h2 := hf a b ha hb
      simp [mget, List.getElem?_set_ne this, hai] at h2 ⊢
      exact h2

theorem MRep.of_rect {α : Type} [Zero α] (R : List (List α)) (K : Nat)
    (hrect : ∀ row ∈ R, row.length = K) : MRep R R.length K (entry R) := by
  refine ⟨rfl, hrect, ?_⟩
  intro i j hi hj
  have hrow : R[i].length = K := hrect _ (List.getElem_mem _)
  simp [mget, entry, hi, List.getD_eq_getElem?_getD, hrow, hj]

theorem MRep.mreplicate {α : Type} (K : Nat) (v : α) :
    MRep (List.replicate K (List.replicate K v)) K K (fun _ _ => v) := by
  refine ⟨by simp, ?_, ?_⟩
  · intro row hrow
    rw [List.eq_of_mem_replicate hrow]; simp
  · intro i j hi hj
    simp [mget, List.getElem?_replicate, hi, hj]

theorem MRep.entry_eq {α : Type} [Zero α] {S : List (List α)} {T K : Nat}
    {f : Nat → Nat → α} (h : MRep S T K f) {i j : Nat} (hi : i < T) (hj : j < K) :
    entry S i j = f i j := by
  obtain ⟨row, hrow, hrep⟩ := h.row hi
  have := hrep.2 j hj
  simp [entry, List.getD_eq_getElem?_getD, hrow, this]

theorem psum_eq_sum {α : Type} [AddCommMonoid α] (x : Nat → α) (n : Nat) :
    psum x n = ∑ t in Finset.range n, x t := by
  induction n with
  | zero => simp [psum]
  | succ n ih => rw [psum, ih, Finset.sum_range_succ]

/-! ## `mean_vec` -/

theorem mean_vec_rep {α : Type} [Zero α] [Add α] [Div α] [NatCast α]
    (R : List (List α)) (K : Nat) (hne : R ≠ [])
    (hrect : ∀ row ∈ R, row.length = K) :
    ∃ mu, mean_vec R = some mu ∧
      VRep mu K (fun k => psum (fun t => entry R t k) R.length / (R.length : α)) := by
  have hR := MRep.of_rect R K hrect
  obtain ⟨r0, hr0, hr0K⟩ := hR.row (List.length_pos.mpr hne)
  -- accumulation loops
  obtain ⟨mu1, hmu1, hrep1⟩ := forLoop_inv
    (fun t (mu : List α) => VRep mu K (fun k => psum (fun s => entry R s k) t))
    (fun t mu => forLoop (fun k mu => do
      let x ← mget R t k
      let m ← mu[k]?
      vset mu k (m + x)) 0 K mu) R.length 0 (List.replicate K 0)
    (VRep.vreplicate K 0) (by
      intro t mu _ ht hP
      obtain ⟨mu', hmu', hrep'⟩ := forLoop_inv
        (fun k (mu : List α) => VRep mu K (fun c =>
          if c < k then psum (fun s => entry R s c) (t + 1) else psum (fun s => entry R s c) t))
        (fun k mu => do
          let x ← mget R t k
          let m ← mu[k]?
          vset mu k (m + x)) K 0 mu
        (hP.vcongr (by intro k _; simp)) (by
          intro k mu _ hk hQ
          obtain ⟨ys, hys, hrep⟩ := hQ.vupd (by omega : k < K)
            (psum (fun s => entry R s k) t + entry R t k)
          refine ⟨ys, ?_, hrep.vcongr ?_⟩
          · simp [hR.2.2 t k (by omega) (by omega), hQ.2 k (by omega), hys]
          · intro c _
            exact ite_upd_lt k c (psum (fun s => entry R s k) t + entry R t k)
              (fun c => psum (fun s => entry R s c) (t + 1))
              (fun c => psum (fun s => entry R s c) t) rfl)
      refine ⟨mu', hmu', hrep'.vcongr ?_⟩
      intro k hk
      simp [hk])
  -- division loop
  obtain ⟨mu2, hmu2, hrep2⟩ := forLoop_inv
    (fun k (mu : List α) => VRep mu K (fun c =>
      if c < k then psum (fun s => entry R s c) R.length / (R.length : α)
      else psum (fun s => entry R s c) R.length))
    (fun k mu => do
      let m ← mu[k]?
      vset mu k (m / (R.length : α))) K 0 mu1
    (hrep1.vcongr (by intro k _; simp)) (by
      intro k mu _ hk hQ
      obtain ⟨ys, hys, hrep⟩ := hQ.vupd (by omega : k < K)
        (psum (fun s => entry R s k) R.length / (R.length : α))
      refine ⟨ys, ?_, hrep.vcongr ?_⟩
      · simp [hQ.2 k (by omega), hys]
      · intro c _
        exact ite_upd_lt k c (psum (fun s => entry R s k) R.length / (R.length : α))
          (fun c => psum (fun s => entry R s c) R.length / (R.length : α))
          (fun c => psum (fun s => entry R s c) R.length) rfl)
  refine ⟨mu2, ?_, hrep2.vcongr (by intro k hk; simp [hk])⟩
  simp only [Option.bind_eq_bind] at hmu1 hmu2
  simp [mean_vec, hr0, hr0K.1, hmu1, hmu2]

/-! ## `cov_mat` -/

/-- First half of `cov_mat`: after the accumulation loops the upper triangle holds the
sums of products of deviations and the lower triangle is still zero. -/
theorem cov_accumulate {α : Type} [Zero α] [Add α] [Sub α] [Mul α]
    (R : List (List α)) (mu : List α) (K : Nat) (m : Nat → α)
    (hrect : ∀ row ∈ R, row.length = K) (hmu : VRep mu K m) :
    ∃ S1, forLoop (fun t S =>
        forLoop (fun i S => do
          let xi := (← mget R t i) - (← mu[i]?)
          forLoop (fun j S => do
            let xj := (← mget R t j) - (← mu[j]?)
            mset S i j ((← mget S i j) + xi * xj)) i (K - i) S) 0 K S) 0 R.length
        (List.replicate K (List.replicate K 0)) = some S1 ∧
      MRep S1 K K (fun a b => if a ≤ b then
        psum (fun t => (entry R t a - m a) * (entry R t b - m b)) R.length else 0) := by
  have hR := MRep.of_rect R K hrect
  obtain ⟨S1, hS1, hrep1⟩ := forLoop_inv
    (fun t (S : List (List α)) => MRep S K K (fun a b => if a ≤ b then
        psum (fun s => (entry R s a - m a) * (entry R s b - m b)) t else 0))
    (fun t S =>
        forLoop (fun i S => do
          let xi := (← mget R t i) - (← mu[i]?)
          forLoop (fun j S => do
            let xj := (← mget R t j) - (← mu[j]?)
            mset S i j ((← mget S i j) + xi * xj)) i (K - i) S) 0 K S)
    R.length 0 (List.replicate K (List.replicate K 0))
    ((MRep.mreplicate K 0).mcongr (by intro a b _ _; simp [psum])) (by
      intro t S _ ht hP
      obtain ⟨S', hS', hrep'⟩ := forLoop_inv
        (fun i (S : List (List α)) => MRep S K K (fun a b => if a ≤ b then
          (if a < i then psum (fun s => (entry R s a - m a) * (entry R s b - m b)) (t + 1)
           else psum (fun s => (entry R s a - m a) * (entry R s b - m b)) t) else 0))
        (fun i S => do
          let xi := (← mget R t i) - (← mu[i]?)
          forLoop (fun j S => do
            let xj := (← mget R t j) - (← mu[j]?)
            mset S i j ((← mget S i j) + xi * xj)) i (K - i) S)
        K 0 S (hP.mcongr (by intro a b _ _; simp)) (by
          intro i S _ hi hQ
          have hiK : i < K := by omega
          obtain ⟨Sj, hSj, hrepj⟩ := forLoop_inv
            (fun j (S : List (List α)) => MRep S K K (fun a b => if a ≤ b then
              (if a < i ∨ (a = i ∧ b < j) then
                psum (fun s => (entry R s a - m a) * (entry R s b - m b)) (t + 1)
               else psum (fun s => (entry R s a - m a) * (entry R s b - m b)) t) else 0))
            (fun j S => do
              let xj := (← mget R t j) - (← mu[j]?)
              mset S i j ((← mget S i j) + (entry R t i - m i) * xj))
            (K - i) i S (hQ.mcongr (by
              intro a b _ _
              by_cases hab : a ≤ b
              · by_cases hai : a < i
                · rw [if_pos hab, if_pos hab, if_pos hai, if_pos (Or.inl hai)]
                · rw [if_pos hab, if_pos hab, if_neg hai, if_neg (by omega)]
              · rw [if_neg hab, if_neg hab])) (by
              intro j S hij hj hI
              have hjK : j < K := by omega
              have hget : mget S i j =
                  some (psum (fun s => (entry R s i - m i) * (entry R s j - m j)) t) := by
                rw [hI.2.2 i j hiK hjK]
                beta_reduce
                rw [if_pos hij, if_neg (by omega)]
              obtain ⟨S3, hS3, hrep3⟩ := hI.mupd hiK hjK
                (psum (fun s => (entry R s i - m i) * (entry R s j - m j)) t +
                  (entry R t i - m i) * (entry R t j - m j))
              refine ⟨S3, ?_, hrep3.mcongr ?_⟩
              · simp [hR.2.2 t j (by omega) hjK, hmu.2 j hjK, hget, hS3]
              · intro a b _ _
                beta_reduce
                by_cases h1 : a = i ∧ b = j
                · obtain ⟨rfl, rfl⟩ := h1
                  rw [if_pos ⟨rfl, rfl⟩, if_pos hij, if_pos (by omega)]
                  rfl
                · rw [if_neg h1]
                  by_cases hab : a ≤ b
                  · rw [if_pos hab, if_pos hab]
                    by_cases h2 : a < i ∨ (a = i ∧ b < j)
                    · rw [if_pos h2, if_pos (by omega)]
                    · rw [if_neg h2, if_neg (by omega)]
                  · rw [if_neg hab, if_neg hab])
          refine ⟨Sj, ?_, hrepj.mcongr ?_⟩
          · simp only [Option.bind_eq_bind] at hSj ⊢
            simp [hR.2.2 t i (by omega) hiK, hmu.2 i hiK]
            simpa using hSj
          · intro a b _ hb
            beta_reduce
            by_cases hab : a ≤ b
            · rw [if_pos hab, if_pos hab]
              by_cases h2 : a < i ∨ (a = i ∧ b < i + (K - i))
              · rw [if_pos h2, if_pos (by omega)]
              · rw [if_neg h2, if_neg (by omega)]
            · rw [if_neg hab, if_neg hab])
      refine ⟨S', hS', hrep'.mcongr ?_⟩
      intro a b ha _
      beta_reduce
      by_cases hab : a ≤ b
      · rw [if_pos hab, if_pos hab, if_pos (by omega)]
      · rw [if_neg hab, if_neg hab])
  exact ⟨S1, hS1, hrep1.mcongr (by intro a b _ _; simp)⟩

/-- Second half of `cov_mat`: dividing the upper triangle and copying each quotient to
the mirrored position leaves at `(a, b)` the quotient of the upper-triangle entry
`(min a b, max a b)`. -/
theorem cov_scale_mirror {α : Type} [Div α]
    (S : List (List α)) (K : Nat) (A : Nat → Nat → α) (d : α) (hS : MRep S K K A) :
    ∃ S2, forLoop (fun i S =>
        forLoop (fun j S => do
          let S ← mset S i j ((← mget S i j) / d)
          mset S j i (← mget S i j)) i (K - i) S) 0 K S = some S2 ∧
      MRep S2 K K (fun a b => A (min a b) (max a b) / d) := by
  obtain ⟨S2, hS2, hrep2⟩ := forLoop_inv
    (fun i (S : List (List α)) => MRep S K K (fun a b =>
      if a < i ∨ b < i then A (min a b) (max a b) / d else A a b))
    (fun i S =>
        forLoop (fun j S => do
          let S ← mset S i j ((← mget S i j) / d)
          mset S j i (← mget S i j)) i (K - i) S)
    K 0 S (hS.mcongr (by intro a b _ _; simp)) (by
      intro i S _ hi hP
      have hiK : i < K := by omega
      obtain ⟨S', hS', hrep'⟩ := forLoop_inv
        (fun j (S : List (List α)) => MRep S K K (fun a b =>
          if a < i ∨ b < i ∨ (a = i ∧ b < j) ∨ (b = i ∧ a < j) then
            A (min a b) (max a b) / d else A a b))
        (fun j S => do
          let S ← mset S i j ((← mget S i j) / d)
          mset S j i (← mget S i j))
        (K - i) i S (hP.mcongr (by
          intro a b _ _
          by_cases h : a < i ∨ b < i
          · rw [if_pos h, if_pos (by omega)]
          · rw [if_neg h, if_neg (by omega)])) (by
          intro j S hij hj hI
          have hjK : j < K := by omega
          have hget : mget S i j = some (A i j) := by
            rw [hI.2.2 i j hiK hjK]
            beta_reduce
            rw [if_neg (by omega)]
          obtain ⟨S3, hS3, hrep3⟩ := hI.mupd hiK hjK (A i j / d)
          have hget3 : mget S3 i j = some (A i j / d) := by
            rw [hrep3.2.2 i j hiK hjK]
            beta_reduce
            rw [if_pos ⟨rfl, rfl⟩]
          obtain ⟨S4, hS4, hrep4⟩ := hrep3.mupd hjK hiK (A i j / d)
          refine ⟨S4, ?_, hrep4.mcongr ?_⟩
          · simp [hget, hS3, hget3, hS4]
          · intro a b _ _
            beta_reduce
            by_cases h1 : a = j ∧ b = i
            · obtain ⟨rfl, rfl⟩ := h1
              rw [if_pos ⟨rfl, rfl⟩, if_pos (by omega), min_eq_right hij, max_eq_left hij]
            · rw [if_neg h1]
              by_cases h2 : a = i ∧ b = j
              · obtain ⟨rfl, rfl⟩ := h2
                rw [if_pos ⟨rfl, rfl⟩, if_pos (by omega), min_eq_left hij, max_eq_right hij]
              · rw [if_neg h2]
                by_cases h3 : a < i ∨ b < i ∨ (a = i ∧ b < j) ∨ (b = i ∧ a < j)
                · rw [if_pos h3, if_pos (by omega)]
                · rw [if_neg h3, if_neg (by omega)])
      refine ⟨S', hS', hrep'.mcongr ?_⟩
      intro a b ha hb
      beta_reduce
      by_cases h3 : a < i ∨ b < i ∨ (a = i ∧ b < i + (K - i)) ∨ (b = i ∧ a < i + (K - i))
      · rw [if_pos h3, if_pos (by omega)]
      · rw [if_neg h3, if_neg (by omega)])
  refine ⟨S2, hS2, hrep2.mcongr ?_⟩
  intro a b ha _
  beta_reduce
  rw [if_pos (by omega)]

/-- What `cov_mat` returns for a non-empty rectangular matrix and any `mu` of matching
length, stated with the left-to-right sums the loops compute. -/
theorem cov_mat_rep {α : Type} [Zero α] [Add α] [Sub α] [Mul α] [Div α] [NatCast α]
    (R : List (List α)) (mu : List α) (K : Nat) (m : Nat → α) (hne : R ≠ [])
    (hrect : ∀ row ∈ R, row.length = K) (hmu : VRep mu K m) :
    ∃ S, cov_mat R mu = some S ∧
      MRep S K K (fun a b =>
        psum (fun t => (entry R t (min a b) - m (min a b)) *
          (entry R t (max a b) - m (max a b))) R.length / ((R.length - 1 : Nat) : α)) := by
  have hR := MRep.of_rect R K hrect
  obtain ⟨r0, hr0, hr0K⟩ := hR.row (List.length_pos.mpr hne)
  obtain ⟨S1, hS1, hrep1⟩ := cov_accumulate R mu K m hrect hmu
  obtain ⟨S2, hS2, hrep2⟩ := cov_scale_mirror S1 K _ ((R.length - 1 : Nat) : α) hrep1
  refine ⟨S2, ?_, hrep2.mcongr ?_⟩
  · simp only [Option.bind_eq_bind] at hS1 hS2
    simp [cov_mat, hr0, hr0K.1, hS1, hS2]
  · intro a b _ _
    beta_reduce
    rw [if_pos (le_trans (min_le_left a b) (le_max_left a b))]

/-! ## `random_weights` -/

theorem VRep.sum_eq {α : Type} [AddCommMonoid α] :
    ∀ (xs : List α) (K : Nat) (f : Nat → α), VRep xs K f →
      xs.sum = ∑ k in Finset.range K, f k := by
  intro xs
  induction xs with
  | nil =>
    intro K f h
    have : K = 0 := h.1.symm
    subst this; simp
  | cons a tl ih =>
    intro K f h
    obtain ⟨hl, hf⟩ := h
    have hK : K = tl.length + 1 := by simpa using hl.symm
    subst hK
    have h0 := hf 0 (by omega)
    simp at h0
    have htl : VRep tl tl.length (fun k => f (k + 1)) := by
      refine ⟨rfl, ?_⟩
      intro k hk
      have := hf (k + 1) (by omega)
      simpa using this
    rw [List.sum_cons, ih _ _ htl, Finset.sum_range_succ', h0, add_comm]

theorem eps9_pos {α : Type} [LinearOrderedField α] : (0 : α) < 1e-9 := by norm_num

/-- What `random_weights` returns, with the draws named by `draw`. -/
theorem random_weights_rep {α G : Type} [LinearOrderedField α]
    (U : G → α × G) (K : Nat) (rng : G) :
    ∃ w, random_weights U K rng = some (w, rngAfter U K rng) ∧
      VRep w K (fun k => (draw U rng k + 1e-9) /
        psum (fun c => draw U rng c + 1e-9) K) := by
  obtain ⟨⟨w1, s1, g1⟩, hl1, hw1, hs1, hg1⟩ := forLoop_inv
    (fun k (st : List α × α × G) =>
      VRep st.1 K (fun c => if c < k then draw U rng c + 1e-9 else 0) ∧
      st.2.1 = psum (fun c => draw U rng c + 1e-9) k ∧ st.2.2 = rngAfter U k rng)
    (fun k (st : List α × α × G) => do
      let (w, sum, rng) := st
      let (u, rng) := U rng
      let w ← vset w k (u + 1e-9)
      let sum := sum + (← w[k]?)
      pure (w, sum, rng)) K 0 (List.replicate K 0, 0, rng)
    ⟨(VRep.vreplicate K 0).vcongr (by intro k _; simp), rfl, rfl⟩ (by
      rintro k ⟨w, s, g⟩ _ hk ⟨hw, hs, hg⟩
      simp only at hw hs hg
      have hkK : k < K := by omega
      obtain ⟨w', hw', hrep'⟩ := hw.vupd hkK (draw U rng k + 1e-9)
      have hget : w'[k]? = some (draw U rng k + 1e-9) := by
        rw [hrep'.2 k hkK]; simp
      refine ⟨(w', s + (draw U rng k + 1e-9), rngAfter U (k + 1) rng), ?_, ?_, ?_, rfl⟩
      · subst hg
        have hu : (U (rngAfter U k rng)).1 = draw U rng k := rfl
        simp [hu, hw', hget, rngAfter]
      · refine hrep'.vcongr ?_
        intro c _
        exact ite_upd_lt k c (draw U rng k + 1e-9) (fun c => draw U rng c + 1e-9)
          (fun _ => 0) rfl
      · simp only [hs, psum])
  simp only [Nat.zero_add] at hw1 hs1 hg1
  obtain ⟨w2, hl2, hw2⟩ := forLoop_inv
    (fun k (w : List α) => VRep w K (fun c =>
      if c < k then (draw U rng c + 1e-9) / s1 else draw U rng c + 1e-9))
    (fun k w => do
      vset w k ((← w[k]?) / s1)) K 0 w1
    (hw1.vcongr (by intro k hk; simp [hk])) (by
      intro k w _ hk hw
      have hkK : k < K := by omega
      obtain ⟨w', hw', hrep'⟩ := hw.vupd hkK ((draw U rng k + 1e-9) / s1)
      refine ⟨w', ?_, hrep'.vcongr ?_⟩
      · simp [hw.2 k hkK, hw']
      · intro c _
        exact ite_upd_lt k c ((draw U rng k + 1e-9) / s1)
          (fun c => (draw U rng c + 1e-9) / s1) (fun c => draw U rng c + 1e-9) rfl)
  refine ⟨w2, ?_, hw2.vcongr (by intro k hk; simp [hk, hs1])⟩
  simp only [Option.bind_eq_bind, Option.pure_def] at hl1 hl2
  simp [random_weights, hl1, hl2, hg1]

/-! ## `dot`, `quad` and the trial body -/

/-- The value of `dot a b` when `b` has an entry at every index of `a`. -/
theorem dot_rep {α : Type} [Zero α] [Add α] [Mul α] (a b : List α) (f g : Nat → α)
    (ha : VRep a a.length f) (hb : ∀ i, i < a.length → b[i]? = some (g i)) :
    dot a b = some (psum (fun i => f i * g i) a.length) := by
  obtain ⟨s, hs, hP⟩ := forLoop_inv
    (fun i (s : α) => s = psum (fun i => f i * g i) i)
    (fun i s => do
      pure (s + (← a[i]?) * (← b[i]?))) a.length 0 0 rfl (by
      intro i s _ hi hP
      have hi' : i < a.length := by omega
      refine ⟨s + f i * g i, ?_, by simp only [hP, psum]⟩
      simp [ha.2 i hi', hb i hi'])
  rw [Nat.zero_add] at hP
  rw [dot, hs, hP]

/-- The value of `quad w S` when `S` has an entry at every `(i, j)` below the length of
`w`. -/
theorem quad_rep {α : Type} [Zero α] [Add α] [Mul α] (w : List α) (S : List (List α))
    (f : Nat → α) (c : Nat → Nat → α) (hw : VRep w w.length f)
    (hS : ∀ i j, i < w.length → j < w.length → mget S i j = some (c i j)) :
    quad w S = some (psum (fun i => f i * psum (fun j => c i j * f j) w.length) w.length) := by
  obtain ⟨s, hs, hP⟩ := forLoop_inv
    (fun i (s : α) => s = psum (fun i => f i * psum (fun j => c i j * f j) w.length) i)
    (fun i s => do
      let tmp ← forLoop (fun j tmp => do
        pure (tmp + (← mget S i j) * (← w[j]?))) 0 w.length 0
      pure (s + (← w[i]?) * tmp)) w.length 0 0 rfl (by
      intro i s _ hi hP
      have hi' : i < w.length := by omega
      obtain ⟨tmp, htmp, hQ⟩ := forLoop_inv
        (fun j (tmp : α) => tmp = psum (fun j => c i j * f j) j)
        (fun j tmp => do
          pure (tmp + (← mget S i j) * (← w[j]?))) w.length 0 0 rfl (by
          intro j tmp _ hj hQ
          have hj' : j < w.length := by omega
          refine ⟨tmp + c i j * f j, ?_, by simp only [hQ, psum]⟩
          simp [hS i j hi' hj', hw.2 j hj'])
      rw [Nat.zero_add] at hQ
      refine ⟨s + f i * tmp, ?_, by simp only [hP, hQ, psum]⟩
      simp only [Option.bind_eq_bind, Option.pure_def] at htmp
      simp [htmp, hw.2 i hi'])
  rw [Nat.zero_add] at hP
  rw [quad]
  exact hs.trans (by rw [hP])

/-! ## Annualisation -/

theorem days_eq {α : Type} [LinearOrderedField α] : (252.0 : α) = 252 := by norm_num

theorem zero_lit_eq {α : Type} [LinearOrderedField α] : (0.0 : α) = 0 := by norm_num

theorem eps12_pos {α : Type} [LinearOrderedField α] : (0 : α) < 1e-12 := by norm_num

/-- The index loops of the annualisation block multiply every entry of a `K x K` matrix
by `d`. -/
theorem scale_loop_rep {α : Type} [Mul α] (S : List (List α)) (K : Nat)
    (c : Nat → Nat → α) (d : α) (hS : MRep S K K c) :
    ∃ S2, forLoop (fun i S_ann =>
        forLoop (fun j S_ann => do
          mset S_ann i j ((← mget S_ann i j) * d)) 0 K S_ann) 0 K S = some S2 ∧
      MRep S2 K K (fun a b => c a b * d) := by
  obtain ⟨S2, hS2, hrep2⟩ := forLoop_inv
    (fun i (S : List (List α)) => MRep S K K (fun a b =>
      if a < i then c a b * d else c a b))
    (fun i S_ann =>
        forLoop (fun j S_ann => do
          mset S_ann i j ((← mget S_ann i j) * d)) 0 K S_ann)
    K 0 S (hS.mcongr (by intro a b _ _; simp)) (by
      intro i S _ hi hP
      have hiK : i < K := by omega
      obtain ⟨S3, hS3, hrep3⟩ := forLoop_inv
        (fun j (S : List (List α)) => MRep S K K (fun a b =>
          if a < i ∨ (a = i ∧ b < j) then c a b * d else c a b))
        (fun j S_ann => do
          mset S_ann i j ((← mget S_ann i j) * d))
        K 0 S (hP.mcongr (by
          intro a b _ _
          by_cases h : a < i
          · rw [if_pos h, if_pos (by omega)]
          · rw [if_neg h, if_neg (by omega)])) (by
          intro j S _ hj hI
          have hjK : j < K := by omega
          have hget : mget S i j = some (c i j) := by
            rw [hI.2.2 i j hiK hjK]
            beta_reduce
            rw [if_neg (by omega)]
          obtain ⟨S4, hS4, hrep4⟩ := hI.mupd hiK hjK (c i j * d)
          refine ⟨S4, by simp [hget, hS4], hrep4.mcongr ?_⟩
          intro a b _ _
          beta_reduce
          by_cases h1 : a = i ∧ b = j
          · obtain ⟨rfl, rfl⟩ := h1
            rw [if_pos ⟨rfl, rfl⟩, if_pos (by omega)]
          · rw [if_neg h1]
            by_cases h2 : a < i ∨ (a = i ∧ b < j)
            · rw [if_pos h2, if_pos (by omega)]
            · rw [if_neg h2, if_neg (by omega)])
      refine ⟨S3, hS3, hrep3.mcongr ?_⟩
      intro a b _ hb
      beta_reduce
      by_cases h2 : a < i ∨ (a = i ∧ b < 0 + K)
      · rw [if_pos h2, if_pos (by omega)]
      · rw [if_neg h2, if_neg (by omega)])
  refine ⟨S2, hS2, hrep2.mcongr ?_⟩
  intro a b ha _
  beta_reduce
  rw [if_pos (by omega)]

/-- With the flag set the annualisation block returns `mu` and `S` multiplied by 252. -/
theorem annualization_true {α : Type} [LinearOrderedField α]
    (mu : List α) (S : List (List α)) (K : Nat) (c : Nat → Nat → α) (hS : MRep S K K c) :
    ∃ S_ann, annualization mu S true = some (mu.map (fun m => m * 252), S_ann) ∧
      MRep S_ann K K (fun a b => c a b * 252) := by
  obtain ⟨S2, hS2, hrep2⟩ := scale_loop_rep S K c 252 hS
  refine ⟨S2, ?_, hrep2⟩
  simp only [Option.bind_eq_bind] at hS2
  simp [annualization, hS.1, days_eq, hS2]

/-- Without the flag the annualisation block returns `mu` and `S` themselves. -/
theorem annualization_false {α : Type} [LinearOrderedField α]
    (mu : List α) (S : List (List α)) : annualization mu S false = some (mu, S) := by
  simp [annualization]

/-- The values of `dot` and `quad` on vectors and a matrix of matching dimension `K`, as
finite sums. -/
theorem dot_quad_sum {α : Type} [LinearOrderedField α]
    (w m : List α) (C : List (List α)) (K : Nat)
    (hw : w.length = K) (hm : m.length = K) (hCK : C.length = K)
    (hrows : ∀ row ∈ C, row.length = K) :
    dot w m = some (∑ i in Finset.range K, w.getD i 0 * m.getD i 0) ∧
      quad w C = some (∑ i in Finset.range K,
        w.getD i 0 * ∑ j in Finset.range K, entry C i j * w.getD j 0) := by
  subst hw
  have hC : MRep C w.length w.length (entry C) := by
    have := MRep.of_rect C w.length hrows
    rwa [hCK] at this
  have hmv : VRep m w.length (fun k => m.getD k 0) := by
    have := VRep.of_list m
    rwa [hm] at this
  constructor
  · rw [dot_rep w m _ _ (VRep.of_list w) hmv.2, psum_eq_sum]
  · rw [quad_rep w C _ _ (VRep.of_list w) hC.2.2, psum_eq_sum]
    congr 1
    exact Finset.sum_congr rfl (fun i _ => by rw [psum_eq_sum])

/-! ## The covariance matrix as a Gram matrix -/

/-- The matrix `cov_mat` returns over a field, with finite sums: every entry is the sum of
products of deviations from `mu`, divided by `T - 1`. -/
theorem cov_mat_sum {α : Type} [LinearOrderedField α]
    (R : List (List α)) (mu : List α) (K : Nat) (hne : R ≠ [])
    (hrect : ∀ row ∈ R, row.length = K) (hmu : mu.length = K) :
    ∃ S, cov_mat R mu = some S ∧
      MRep S K K (fun a b =>
        (∑ t in Finset.range R.length,
          (entry R t a - mu.getD a 0) * (entry R t b - mu.getD b 0)) /
            ((R.length : α) - 1)) := by
  have hmu' : VRep mu K (fun k => mu.getD k 0) := by
    have := VRep.of_list mu
    rwa [hmu] at this
  obtain ⟨S, hcov, hS⟩ := cov_mat_rep R mu K _ hne hrect hmu'
  refine ⟨S, hcov, hS.mcongr ?_⟩
  intro a b _ _
  beta_reduce
  have h1 : 1 ≤ R.length := List.length_pos.mpr hne
  rw [psum_eq_sum, Nat.cast_sub h1, Nat.cast_one]
  congr 1
  rcases le_total a b with h | h
  · simp only [min_eq_left h, max_eq_right h]
  · simp only [min_eq_right h, max_eq_left h]
    exact Finset.sum_congr rfl (fun t _ => mul_comm _ _)

/-- A quadratic form in a Gram matrix is a sum of squares. -/
theorem gram_quad_eq {α : Type} [LinearOrderedField α] (K T : Nat) (f : Nat → α)
    (y : Nat → Nat → α) (D : α) :
    (∑ i in Finset.range K, f i * ∑ j in Finset.range K,
        ((∑ t in Finset.range T, y t i * y t j) / D) * f j) =
      (∑ t in Finset.range T, (∑ i in Finset.range K, f i * y t i) *
        (∑ i in Finset.range K, f i * y t i)) / D := by
  calc (∑ i in Finset.range K, f i * ∑ j in Finset.range K,
          ((∑ t in Finset.range T, y t i * y t j) / D) * f j)
      = ∑ i in Finset.range K, ∑ j in Finset.range K, ∑ t in Finset.range T,
          f i * y t i * (f j * y t j) / D := by
        apply Finset.sum_congr rfl
        intro i _
        rw [Finset.mul_sum]
        apply Finset.sum_congr rfl
        intro j _
        rw [Finset.sum_div, Finset.sum_mul, Finset.mul_sum]
        apply Finset.sum_congr rfl
        intro t _
        ring
    _ = ∑ i in Finset.range K, ∑ t in Finset.range T, ∑ j in Finset.range K,
          f i * y t i * (f j * y t j) / D := by
        apply Finset.sum_congr rfl
        intro i _
        exact Finset.sum_comm
    _ = ∑ t in Finset.range T, ∑ i in Finset.range K, ∑ j in Finset.range K,
          f i * y t i * (f j * y t j) / D := Finset.sum_comm
    _ = (∑ t in Finset.range T, (∑ i in Finset.range K, f i * y t i) *
          (∑ i in Finset.range K, f i * y t i)) / D := by
        rw [Finset.sum_div]
        apply Finset.sum_congr rfl
        intro t _
        rw [Finset.sum_mul_sum, Finset.sum_div]
        apply Finset.sum_congr rfl
        intro i _
        rw [Finset.sum_div]

theorem gram_quad_nonneg {α : Type} [LinearOrderedField α] (K T : Nat) (f : Nat → α)
    (y : Nat → Nat → α) (D : α) (hD : 0 ≤ D) :
    0 ≤ ∑ i in Finset.range K, f i * ∑ j in Finset.range K,
        ((∑ t in Finset.range T, y t i * y t j) / D) * f j := by
  rw [gram_quad_eq]
  exact div_nonneg (Finset.sum_nonneg (fun t _ => mul_self_nonneg _)) hD

/-! ## The simulation loop of `main` -/

theorem rngAfter_add {α G : Type} (U : G → α × G) (a : Nat) (g : G) :
    ∀ b, rngAfter U (a + b) g = rngAfter U b (rngAfter U a g) := by
  intro b
  induction b with
  | zero => rfl
  | succ b ih =>
    show (U (rngAfter U (a + b) g)).2 = (U (rngAfter U b (rngAfter U a g))).2
    rw [ih]

/-- The annualisation block returns statistics of the dimension it was given. -/
theorem annualization_shape {α : Type} [LinearOrderedField α]
    (mu : List α) (S : List (List α)) (K : Nat) (annualize : Bool)
    (hSK : S.length = K) (hrows : ∀ row ∈ S, row.length = K) :
    ∃ mu_ann S_ann, annualization mu S annualize = some (mu_ann, S_ann) ∧
      mu_ann.length = mu.length ∧ S_ann.length = K ∧ ∀ row ∈ S_ann, row.length = K := by
  cases annualize with
  | false => exact ⟨mu, S, annualization_false mu S, rfl, hSK, hrows⟩
  | true =>
    have hS : MRep S K K (entry S) := by
      have := MRep.of_rect S K hrows
      rwa [hSK] at this
    obtain ⟨S_ann, hann, hrep⟩ := annualization_true mu S K _ hS
    exact ⟨_, S_ann, hann, by simp, hrep.1, hrep.2.1⟩

/-- The trial body returns a row that carries the weights it was given, whenever the
selected statistics have the dimension of `w`. -/
theorem trial_some {α : Type} [LinearOrderedField α] (sqrt : α → α)
    (w mu mu_ann : List α) (S S_ann : List (List α)) (rf : α) (annualize : Bool) (K : Nat)
    (hw : w.length = K) (hmu : mu.length = K) (hmuA : mu_ann.length = K)
    (hS : S.length = K) (hSr : ∀ row ∈ S, row.length = K)
    (hSA : S_ann.length = K) (hSAr : ∀ row ∈ S_ann, row.length = K) :
    ∃ row, trial sqrt w mu mu_ann S S_ann rf annualize = some row ∧ row.weights = w ∧
      dot w (if annualize then mu_ann else mu) = some row.ret ∧
      (quad w (if annualize then S_ann else S)).isSome := by
  have hm : (if annualize then mu_ann else mu).length = K := by
    cases annualize <;> simpa
  have hC : (if annualize then S_ann else S).length = K := by
    cases annualize <;> simpa
  have hCr : ∀ row ∈ (if annualize then S_ann else S), row.length = K := by
    cases annualize <;> simpa
  obtain ⟨hdot, hquad⟩ := dot_quad_sum w _ _ K hw hm hC hCr
  obtain ⟨r, hr⟩ : ∃ r, dot w (if annualize then mu_ann else mu) = some r := ⟨_, hdot⟩
  obtain ⟨v, hv⟩ : ∃ v, quad w (if annualize then S_ann else S) = some v := ⟨_, hquad⟩
  refine ⟨⟨(if annualize then r - rf else r) / (sqrt (max v 0.0) + 1e-12), r,
    sqrt (max v 0.0), w⟩, ?_, rfl, hr, by rw [hv]; rfl⟩
  simp only [trial, hr, hv, Option.bind_eq_bind, Option.some_bind, Option.pure_def]

/-- The simulation loop: `n` iterations emit `n` rows in order; row `i` comes from the
weights drawn in the generator state left by the `i` trials before it. -/
theorem trial_loop_rep {α G : Type} [LinearOrderedField α] (sqrt : α → α) (U : G → α × G)
    (rng42 : G) (K : Nat) (mu mu_ann : List α) (S S_ann : List (List α)) (rf : α)
    (annualize : Bool) (hmu : mu.length = K) (hmuA : mu_ann.length = K)
    (hS : S.length = K) (hSr : ∀ row ∈ S, row.length = K)
    (hSA : S_ann.length = K) (hSAr : ∀ row ∈ S_ann, row.length = K) (n : Nat) :
    ∃ rows, forLoop (fun _ (st : G × List (Row α)) => do
        let (rng, rows) := st
        let (w, rng) ← random_weights U K rng
        let row ← trial sqrt w mu mu_ann S S_ann rf annualize
        pure (rng, rows ++ [row])) 0 n (rng42, []) = some (rngAfter U (n * K) rng42, rows) ∧
      rows.length = n ∧
      ∀ i, i < n → ∃ w row,
        random_weights U K (rngAfter U (i * K) rng42) =
          some (w, rngAfter U ((i + 1) * K) rng42) ∧
        w.length = K ∧ trial sqrt w mu mu_ann S S_ann rf annualize = some row ∧
        row.weights = w ∧ rows[i]? = some row := by
  obtain ⟨⟨g, rows⟩, hloop, hg, hlen, hrows⟩ := forLoop_inv
    (fun k (st : G × List (Row α)) => st.1 = rngAfter U (k * K) rng42 ∧ st.2.length = k ∧
      ∀ i, i < k → ∃ w row,
        random_weights U K (rngAfter U (i * K) rng42) =
          some (w, rngAfter U ((i + 1) * K) rng42) ∧
        w.length = K ∧ trial sqrt w mu mu_ann S S_ann rf annualize = some row ∧
        row.weights = w ∧ st.2[i]? = some row)
    (fun _ (st : G × List (Row α)) => do
        let (rng, rows) := st
        let (w, rng) ← random_weights U K rng
        let row ← trial sqrt w mu mu_ann S S_ann rf annualize
        pure (rng, rows ++ [row])) n 0 (rng42, [])
    ⟨by simp [rngAfter], rfl, by intro i hi; omega⟩ (by
      rintro k ⟨g, rows⟩ _ hk ⟨hg, hlen, hrows⟩
      simp only at hg hlen hrows
      subst hg
      obtain ⟨w, hw, hwrep⟩ := random_weights_rep U K (rngAfter U (k * K) rng42)
      have hstate : rngAfter U K (rngAfter U (k * K) rng42) =
          rngAfter U ((k + 1) * K) rng42 := by
        rw [← rngAfter_add, Nat.succ_mul]
      rw [hstate] at hw
      obtain ⟨row, hrow, hrw, _, _⟩ := trial_some sqrt w mu mu_ann S S_ann rf annualize K
        hwrep.1 hmu hmuA hS hSr hSA hSAr
      refine ⟨(rngAfter U ((k + 1) * K) rng42, rows ++ [row]), ?_, rfl, by simp [hlen], ?_⟩
      · simp [hw, hrow]
      · intro i hi
        by_cases hik : i < k
        · obtain ⟨w2, row2, h1, h2, h3, h4, h5⟩ := hrows i hik
          refine ⟨w2, row2, h1, h2, h3, h4, ?_⟩
          simp only []
          rw [List.getElem?_append_left (by omega), h5]
        · have hik2 : i = k := by omega
          subst hik2
          refine ⟨w, row, hw, hwrep.1, hrow, hrw, ?_⟩
          simp only []
          rw [List.getElem?_append_right (by omega), hlen]
          simp)
  simp only [Nat.zero_add] at hg hlen hrows
  subst hg
  exact ⟨rows, hloop, hlen, hrows⟩

/-- What `main` does on a non-empty rectangular matrix with as many tickers as columns:
it estimates, annualises, and writes the header and `N.toNat` rows. -/
theorem main_rep {α G : Type} [LinearOrderedField α] (sqrt : α → α) (U : G → α × G)
    (rng42 : G) (D : Data α) (N : Int) (rf : α) (annualize : Bool) (K : Nat)
    (hne : D.returns ≠ []) (hrect : ∀ row ∈ D.returns, row.length = K)
    (htick : D.tickers.length = K) :
    ∃ mu S mu_ann S_ann rows,
      mean_vec D.returns = some mu ∧ cov_mat D.returns mu = some S ∧
      annualization mu S annualize = some (mu_ann, S_ann) ∧
      mu.length = K ∧ mu_ann.length = K ∧
      (S.length = K ∧ ∀ row ∈ S, row.length = K) ∧
      (S_ann.length = K ∧ ∀ row ∈ S_ann, row.length = K) ∧
      main sqrt U rng42 D N rf annualize =
        some (Exit.success (["sharpe", "ret", "vol"] ++ D.tickers) rows) ∧
      rows.length = N.toNat ∧
      ∀ i, i < N.toNat → ∃ w row,
        random_weights U K (rngAfter U (i * K) rng42) =
          some (w, rngAfter U ((i + 1) * K) rng42) ∧
        w.length = K ∧ trial sqrt w mu mu_ann S S_ann rf annualize = some row ∧
        row.weights = w ∧ rows[i]? = some row := by
  obtain ⟨mu, hmean, hmu⟩ := mean_vec_rep D.returns K hne hrect
  obtain ⟨S, hcov, hS⟩ := cov_mat_sum D.returns mu K hne hrect hmu.1
  obtain ⟨mu_ann, S_ann, hann, hmuA, hSA, hSAr⟩ :=
    annualization_shape mu S K annualize hS.1 hS.2.1
  obtain ⟨rows, hloop, hlen, hrows⟩ := trial_loop_rep sqrt U rng42 K mu mu_ann S S_ann rf
    annualize hmu.1 (hmuA.trans hmu.1) hS.1 hS.2.1 hSA hSAr N.toNat
  refine ⟨mu, S, mu_ann, S_ann, rows, hmean, hcov, hann, hmu.1, hmuA.trans hmu.1,
    ⟨hS.1, hS.2.1⟩, ⟨hSA, hSAr⟩, ?_, hlen, hrows⟩
  simp only [Option.bind_eq_bind, Option.pure_def] at hloop
  simp [main, hne, hmean, hcov, hann, htick, hloop]

/-! ## Convex combinations -/

theorem VRep.getD_eq {α : Type} [Zero α] {xs : List α} {K : Nat} {f : Nat → α}
    (h : VRep xs K f) {k : Nat} (hk : k < K) : xs.getD k 0 = f k := by
  simp [List.getD_eq_getElem?_getD, h.2 k hk]

/-- For `K ≥ 1` and draws `≥ 0` the vector `random_weights` returns has positive entries
that sum to 1. -/
theorem random_weights_convex {α G : Type} [LinearOrderedField α]
    (U : G → α × G) (K : Nat) (rng : G) (hK : 1 ≤ K)
    (hU : ∀ k, k < K → 0 ≤ draw U rng k) :
    ∃ w, random_weights U K rng = some (w, rngAfter U K rng) ∧ w.length = K ∧
      (∀ k, k < K → 0 < w.getD k 0) ∧ ∑ k in Finset.range K, w.getD k 0 = 1 := by
  obtain ⟨w, hw, hrep⟩ := random_weights_rep U K rng
  have hpos : ∀ k, k < K → (0 : α) < draw U rng k + 1e-9 := fun k hk =>
    add_pos_of_nonneg_of_pos (hU k hk) eps9_pos
  have hsum : (0 : α) < ∑ m in Finset.range K, (draw U rng m + 1e-9) :=
    Finset.sum_pos (fun m hm => hpos m (Finset.mem_range.mp hm))
      ⟨0, Finset.mem_range.mpr (by omega)⟩
  refine ⟨w, hw, hrep.1, ?_, ?_⟩
  · intro k hk
    rw [hrep.getD_eq hk, psum_eq_sum]
    exact div_pos (hpos k hk) hsum
  · rw [Finset.sum_congr rfl (fun k hk => hrep.getD_eq (Finset.mem_range.mp hk)),
      psum_eq_sum, ← Finset.sum_div, div_self (ne_of_gt hsum)]

theorem convex_comb_le {α : Type} [LinearOrderedField α] (K : Nat) (f a : Nat → α)
    (hf : ∀ k, k < K → 0 ≤ f k) (hsum : ∑ k in Finset.range K, f k = 1) (hi : α)
    (h : ∀ k, k < K → a k ≤ hi) : ∑ k in Finset.range K, f k * a k ≤ hi := by
  calc ∑ k in Finset.range K, f k * a k
      ≤ ∑ k in Finset.range K, f k * hi :=
        Finset.sum_le_sum (fun k hk => mul_le_mul_of_nonneg_left
          (h k (Finset.mem_range.mp hk)) (hf k (Finset.mem_range.mp hk)))
    _ = hi := by rw [← Finset.sum_mul, hsum, one_mul]

theorem le_convex_comb {α : Type} [LinearOrderedField α] (K : Nat) (f a : Nat → α)
    (hf : ∀ k, k < K → 0 ≤ f k) (hsum : ∑ k in Finset.range K, f k = 1) (lo : α)
    (h : ∀ k, k < K → lo ≤ a k) : lo ≤ ∑ k in Finset.range K, f k * a k := by
  calc lo = ∑ k in Finset.range K, f k * lo := by rw [← Finset.sum_mul, hsum, one_mul]
    _ ≤ ∑ k in Finset.range K, f k * a k :=
        Finset.sum_le_sum (fun k hk => mul_le_mul_of_nonneg_left
          (h k (Finset.mem_range.mp hk)) (hf k (Finset.mem_range.mp hk)))

/-- The square of a convex combination is at most the convex combination of the
squares. -/
theorem sq_convex_comb_le {α : Type} [LinearOrderedField α] (K : Nat) (f x : Nat → α)
    (hf : ∀ k, k < K → 0 ≤ f k) (hsum : ∑ k in Finset.range K, f k = 1) :
    (∑ k in Finset.range K, f k * x k) * (∑ k in Finset.range K, f k * x k) ≤
      ∑ k in Finset.range K, f k * (x k * x k) := by
  have hnn : 0 ≤ ∑ k in Finset.range K,
      f k * ((x k - ∑ j in Finset.range K, f j * x j) *
        (x k - ∑ j in Finset.range K, f j * x j)) :=
    Finset.sum_nonneg (fun k hk =>
      mul_nonneg (hf k (Finset.mem_range.mp hk)) (mul_self_nonneg _))
  have key : ∀ m : α, (∑ k in Finset.range K, f k * ((x k - m) * (x k - m))) =
      (∑ k in Finset.range K, f k * (x k * x k)) -
        2 * m * (∑ k in Finset.range K, f k * x k) +
        m * m * (∑ k in Finset.range K, f k) := by
    intro m
    rw [Finset.mul_sum, Finset.mul_sum, ← Finset.sum_sub_distrib, ← Finset.sum_add_distrib]
    apply Finset.sum_congr rfl
    intro k _
    ring
  rw [key, hsum] at hnn
  linarith

/-! ## Moment estimator -/

/-- C1: for a rectangular `T x K` matrix `R` with `T ≥ 2` and `mu = mean_vec R`,
`cov_mat R mu` returns a `K x K` matrix whose entry at every `(i, j)`, lower triangle
included, is `(1/(T-1)) * Σ_t (R[t][i] - mu[i]) * (R[t][j] - mu[j])`. -/
theorem cov_mat_entries {α : Type} [LinearOrderedField α]
    (R : List (List α)) (T K : Nat) (hT : R.length = T) (h2 : 2 ≤ T)
    (hrect : ∀ row ∈ R, row.length = K) :
    ∃ mu S, mean_vec R = some mu ∧ cov_mat R mu = some S ∧
      S.length = K ∧ (∀ row ∈ S, row.length = K) ∧
      ∀ i j, i < K → j < K → mget S i j = some ((1 / ((T : α) - 1)) *
        ∑ t in Finset.range T,
          (entry R t i - mu.getD i 0) * (entry R t j - mu.getD j 0)) := by
  subst hT
  have hne : R ≠ [] := by
    intro h; rw [h] at h2; simp at h2
  obtain ⟨mu, hmean, hmu⟩ := mean_vec_rep R K hne hrect
  have hmu' : VRep mu K (fun k => mu.getD k 0) := by
    have := VRep.of_list mu
    rwa [hmu.1] at this
  obtain ⟨S, hcov, hS⟩ := cov_mat_rep R mu K _ hne hrect hmu'
  refine ⟨mu, S, hmean, hcov, hS.1, hS.2.1, ?_⟩
  intro i j hi hj
  rw [hS.2.2 i j hi hj]
  congr 1
  beta_reduce
  rw [psum_eq_sum, Nat.cast_sub (by omega : 1 ≤ R.length), Nat.cast_one, div_eq_inv_mul,
    one_div]
  congr 1
  rcases le_total i j with h | h
  · simp only [min_eq_left h, max_eq_right h]
  · simp only [min_eq_right h, max_eq_left h]
    exact Finset.sum_congr rfl (fun t _ => mul_comm _ _)

/-- Witness of C1 on a `3 x 2` matrix of rationals. -/
theorem cov_mat_entries_witness :
    ([[1, 2], [3, 5], [5, 6]] : List (List ℚ)).length = 3 ∧ 2 ≤ 3 ∧
      (∀ row ∈ ([[1, 2], [3, 5], [5, 6]] : List (List ℚ)), row.length = 2) ∧
      ∃ mu S, mean_vec ([[1, 2], [3, 5], [5, 6]] : List (List ℚ)) = some mu ∧
        cov_mat [[1, 2], [3, 5], [5, 6]] mu = some S ∧
        S.length = 2 ∧ (∀ row ∈ S, row.length = 2) ∧
        ∀ i j, i < 2 → j < 2 → mget S i j = some ((1 / (((3 : Nat) : ℚ) - 1)) *
          ∑ t in Finset.range 3,
            (entry [[1, 2], [3, 5], [5, 6]] t i - mu.getD i 0) *
              (entry [[1, 2], [3, 5], [5, 6]] t j - mu.getD j 0)) :=
  ⟨rfl, by decide, by simp,
    cov_mat_entries [[1, 2], [3, 5], [5, 6]] 3 2 rfl (by decide) (by simp)⟩

/-- C2: for a rectangular `T x K` matrix `R` with `T ≥ 1`, `mean_vec R` returns a vector
of length exactly `K` whose `k`-th entry is `(1/T) * Σ_t R[t][k]`. -/
theorem mean_vec_spec {α : Type} [LinearOrderedField α]
    (R : List (List α)) (T K : Nat) (hT : R.length = T) (h1 : 1 ≤ T)
    (hrect : ∀ row ∈ R, row.length = K) :
    ∃ mu, mean_vec R = some mu ∧ mu.length = K ∧
      ∀ k, k < K → mu[k]? = some ((1 / (T : α)) * ∑ t in Finset.range T, entry R t k) := by
  subst hT
  have hne : R ≠ [] := by
    intro h; rw [h] at h1; simp at h1
  obtain ⟨mu, hmean, hmu⟩ := mean_vec_rep R K hne hrect
  refine ⟨mu, hmean, hmu.1, ?_⟩
  intro k hk
  rw [hmu.2 k hk]
  beta_reduce
  rw [psum_eq_sum, div_eq_inv_mul, one_div]

/-- Witness of C2 on a `2 x 2` matrix of rationals. -/
theorem mean_vec_spec_witness :
    ([[1, 2], [3, 5]] : List (List ℚ)).length = 2 ∧ 1 ≤ 2 ∧
      (∀ row ∈ ([[1, 2], [3, 5]] : List (List ℚ)), row.length = 2) ∧
      ∃ mu, mean_vec ([[1, 2], [3, 5]] : List (List ℚ)) = some mu ∧ mu.length = 2 ∧
        ∀ k, k < 2 → mu[k]? =
          some ((1 / ((2 : Nat) : ℚ)) * ∑ t in Finset.range 2, entry [[1, 2], [3, 5]] t k) :=
  ⟨rfl, by decide, by simp, mean_vec_spec [[1, 2], [3, 5]] 2 2 rfl (by decide) (by simp)⟩

/-- C3: for a non-empty rectangular matrix `R` with `K` columns and every vector `mu` of
length `K` (not only the mean), `cov_mat R mu` returns a matrix `S` with
`S[i][j] = S[j][i]` for all `i, j < K`.  The arithmetic is arbitrary: no law of `+`, `-`,
`*` or `/` is used, only that both positions receive the same computed value. -/
theorem cov_mat_symmetric {α : Type} [Zero α] [Add α] [Sub α] [Mul α] [Div α] [NatCast α]
    (R : List (List α)) (mu : List α) (K : Nat) (hne : R ≠ [])
    (hrect : ∀ row ∈ R, row.length = K) (hmu : mu.length = K) :
    ∃ S, cov_mat R mu = some S ∧ S.length = K ∧ (∀ row ∈ S, row.length = K) ∧
      ∀ i j, i < K → j < K → ∃ v, mget S i j = some v ∧ mget S j i = some v := by
  have hmu' : VRep mu K (fun k => mu.getD k 0) := by
    have := VRep.of_list mu
    rwa [hmu] at this
  obtain ⟨S, hcov, hS⟩ := cov_mat_rep R mu K _ hne hrect hmu'
  refine ⟨S, hcov, hS.1, hS.2.1, ?_⟩
  intro i j hi hj
  refine ⟨_, hS.2.2 i j hi hj, ?_⟩
  rw [hS.2.2 j i hj hi]
  beta_reduce
  rw [min_comm j i, max_comm j i]

/-- Witness of C3 with a vector `mu` that is not the mean. -/
theorem cov_mat_symmetric_witness :
    ([[1, 2], [3, 5]] : List (List ℚ)) ≠ [] ∧
      (∀ row ∈ ([[1, 2], [3, 5]] : List (List ℚ)), row.length = 2) ∧
      ([7, 0] : List ℚ).length = 2 ∧
      ∃ S, cov_mat ([[1, 2], [3, 5]] : List (List ℚ)) [7, 0] = some S ∧ S.length = 2 ∧
        (∀ row ∈ S, row.length = 2) ∧
        ∀ i j, i < 2 → j < 2 → ∃ v, mget S i j = some v ∧ mget S j i = some v :=
  ⟨by simp, by simp, rfl, cov_mat_symmetric [[1, 2], [3, 5]] [7, 0] 2 (by simp) (by simp) rfl⟩

/-! ## Portfolio sampler -/

/-- C4: for `K ≥ 1` and draws `u_0 .. u_{K-1}` that are all `≥ 0`, `random_weights`
returns a vector of length exactly `K` whose entries are all `> 0` and sum to exactly 1;
entry `k` is `(u_k + 1e-9) / Σ_m (u_m + 1e-9)`. -/
theorem random_weights_simplex {α G : Type} [LinearOrderedField α]
    (U : G → α × G) (K : Nat) (rng : G) (hK : 1 ≤ K)
    (hU : ∀ k, k < K → 0 ≤ draw U rng k) :
    ∃ w rng', random_weights U K rng = some (w, rng') ∧ w.length = K ∧ w.sum = 1 ∧
      ∀ k, k < K → ∃ v, w[k]? = some v ∧ 0 < v ∧
        v = (draw U rng k + 1e-9) / ∑ m in Finset.range K, (draw U rng m + 1e-9) := by
  obtain ⟨w, hw, hrep⟩ := random_weights_rep U K rng
  have hpos : ∀ k, k < K → (0 : α) < draw U rng k + 1e-9 := fun k hk =>
    add_pos_of_nonneg_of_pos (hU k hk) eps9_pos
  have hsum : (0 : α) < ∑ m in Finset.range K, (draw U rng m + 1e-9) :=
    Finset.sum_pos (fun m hm => hpos m (Finset.mem_range.mp hm))
      ⟨0, Finset.mem_range.mpr (by omega)⟩
  refine ⟨w, _, hw, hrep.1, ?_, ?_⟩
  · rw [VRep.sum_eq w K _ hrep, psum_eq_sum, ← Finset.sum_div, div_self (ne_of_gt hsum)]
  · intro k hk
    refine ⟨_, hrep.2 k hk, ?_, ?_⟩
    · beta_reduce
      rw [psum_eq_sum]
      exact div_pos (hpos k hk) hsum
    · beta_reduce
      rw [psum_eq_sum]

/-- Witness of C4: three draws `1/10, 2/10, 3/10` from a counter used as generator. -/
theorem random_weights_simplex_witness :
    1 ≤ 3 ∧ (∀ k, k < 3 → 0 ≤ draw (fun g : Nat => ((g : ℚ) / 10, g + 1)) 1 k) ∧
      ∃ w rng', random_weights (fun g : Nat => ((g : ℚ) / 10, g + 1)) 3 1 = some (w, rng') ∧
        w.length = 3 ∧ w.sum = 1 ∧
        ∀ k, k < 3 → ∃ v, w[k]? = some v ∧ 0 < v ∧
          v = (draw (fun g : Nat => ((g : ℚ) / 10, g + 1)) 1 k + 1e-9) /
            ∑ m in Finset.range 3, (draw (fun g : Nat => ((g : ℚ) / 10, g + 1)) 1 m + 1e-9) :=
  ⟨by decide, fun k _ => by simp only [draw]; positivity,
    random_weights_simplex (fun g : Nat => ((g : ℚ) / 10, g + 1)) 3 1 (by decide)
      (fun k _ => by simp only [draw]; positivity)⟩

/-! ## Portfolio evaluator -/

/-- C5: with `m` and `C` the statistics a trial selects (`annualize ? mu_ann : mu` and
`annualize ? S_ann : S`), of the dimension `K` of `w`, the trial computes
`ret = Σ_i w[i]*m[i]`, `var = Σ_i w[i] * Σ_j C[i][j]*w[j]`, `vol = sqrt (max var 0)` and
`sharpe = (ret - rf) / (vol + 1e-12)` with the flag set, `ret / (vol + 1e-12)` without;
without the flag the row is the same for every `rf`. -/
theorem trial_values {α : Type} [LinearOrderedField α] (sqrt : α → α)
    (w mu mu_ann : List α) (S S_ann : List (List α)) (rf : α) (annualize : Bool)
    (K : Nat) (m : List α) (C : List (List α))
    (hm : m = if annualize then mu_ann else mu) (hC : C = if annualize then S_ann else S)
    (hw : w.length = K) (hmK : m.length = K) (hCK : C.length = K)
    (hrows : ∀ row ∈ C, row.length = K) :
    ∃ ret var, ret = ∑ i in Finset.range K, w.getD i 0 * m.getD i 0 ∧
      var = ∑ i in Finset.range K,
        w.getD i 0 * ∑ j in Finset.range K, entry C i j * w.getD j 0 ∧
      dot w m = some ret ∧ quad w C = some var ∧
      trial sqrt w mu mu_ann S S_ann rf annualize = some
        { sharpe := (if annualize then ret - rf else ret) / (sqrt (max var 0) + 1e-12)
          ret := ret
          vol := sqrt (max var 0)
          weights := w } ∧
      (annualize = false → ∀ rf2,
        trial sqrt w mu mu_ann S S_ann rf2 annualize =
          trial sqrt w mu mu_ann S S_ann rf annualize) := by
  subst hm hC
  obtain ⟨hdot, hquad⟩ := dot_quad_sum w _ _ K hw hmK hCK hrows
  refine ⟨_, _, rfl, rfl, hdot, hquad, ?_, ?_⟩
  · simp only [trial, hdot, hquad, Option.bind_eq_bind, Option.some_bind, Option.pure_def,
      zero_lit_eq]
  · intro hfalse rf2
    subst hfalse
    simp [trial]

/-- Witness of C5: an annualised trial on two assets, with the identity in place of the
square root. -/
theorem trial_values_witness :
    ([2, 4] : List ℚ) = (if true then [2, 4] else [1, 3]) ∧
      ([[4, 0], [0, 4]] : List (List ℚ)) = (if true then [[4, 0], [0, 4]] else [[1, 0], [0, 1]]) ∧
      ([1 / 2, 1 / 2] : List ℚ).length = 2 ∧ ([2, 4] : List ℚ).length = 2 ∧
      ([[4, 0], [0, 4]] : List (List ℚ)).length = 2 ∧
      (∀ row ∈ ([[4, 0], [0, 4]] : List (List ℚ)), row.length = 2) ∧
      ∃ ret var, ret = ∑ i in Finset.range 2,
          ([1 / 2, 1 / 2] : List ℚ).getD i 0 * ([2, 4] : List ℚ).getD i 0 ∧
        var = ∑ i in Finset.range 2, ([1 / 2, 1 / 2] : List ℚ).getD i 0 *
          ∑ j in Finset.range 2,
            entry ([[4, 0], [0, 4]] : List (List ℚ)) i j * ([1 / 2, 1 / 2] : List ℚ).getD j 0 ∧
        dot [1 / 2, 1 / 2] [2, 4] = some ret ∧
        quad [1 / 2, 1 / 2] [[4, 0], [0, 4]] = some var ∧
        trial (fun x : ℚ => x) [1 / 2, 1 / 2] [1, 3] [2, 4] [[1, 0], [0, 1]] [[4, 0], [0, 4]]
          (1 / 100) true = some
          { sharpe := (if true then ret - 1 / 100 else ret) / (max var 0 + 1e-12)
            ret := ret
            vol := max var 0
            weights := [1 / 2, 1 / 2] } ∧
        (true = false → ∀ rf2,
          trial (fun x : ℚ => x) [1 / 2, 1 / 2] [1, 3] [2, 4] [[1, 0], [0, 1]] [[4, 0], [0, 4]]
            rf2 true =
          trial (fun x : ℚ => x) [1 / 2, 1 / 2] [1, 3] [2, 4] [[1, 0], [0, 1]] [[4, 0], [0, 4]]
            (1 / 100) true) :=
  ⟨rfl, rfl, rfl, rfl, rfl, by simp,
    trial_values (fun x : ℚ => x) [1 / 2, 1 / 2] [1, 3] [2, 4] [[1, 0], [0, 1]] [[4, 0], [0, 4]]
      (1 / 100) true 2 [2, 4] [[4, 0], [0, 4]] rfl rfl rfl rfl rfl (by simp)⟩

/-! ## Annualisation transform -/

/-- C7: for a mean vector `mu` and a `K x K` matrix `S`, with the flag set the statistics a
trial selects (`annualize ? mu_ann : mu`, `annualize ? S_ann : S`) are `mu[k] * 252` and
`S[i][j] * 252` at every index (the covariance itself is scaled); without the flag they
are `mu` and `S` unchanged. -/
theorem annualization_spec {α : Type} [LinearOrderedField α]
    (mu : List α) (S : List (List α)) (K : Nat) (annualize : Bool)
    (hSK : S.length = K) (hrows : ∀ row ∈ S, row.length = K) :
    ∃ mu_ann S_ann, annualization mu S annualize = some (mu_ann, S_ann) ∧
      (annualize = true →
        (if annualize then mu_ann else mu).length = mu.length ∧
        (∀ k, k < mu.length →
          (if annualize then mu_ann else mu)[k]? = some (mu.getD k 0 * 252)) ∧
        (if annualize then S_ann else S).length = K ∧
        (∀ row ∈ (if annualize then S_ann else S), row.length = K) ∧
        ∀ i j, i < K → j < K →
          mget (if annualize then S_ann else S) i j = some (entry S i j * 252)) ∧
      (annualize = false →
        (if annualize then mu_ann else mu) = mu ∧ (if annualize then S_ann else S) = S) := by
  have hS : MRep S K K (entry S) := by
    have := MRep.of_rect S K hrows
    rwa [hSK] at this
  cases annualize with
  | false =>
    refine ⟨mu, S, annualization_false mu S, ?_, ?_⟩
    · intro h; cases h
    · intro _; simp
  | true =>
    obtain ⟨S_ann, hann, hrep⟩ := annualization_true mu S K _ hS
    refine ⟨_, S_ann, hann, ?_, ?_⟩
    · intro _
      refine ⟨by simp, ?_, by simpa using hrep.1, by simpa using hrep.2.1, ?_⟩
      · intro k hk
        simp [List.getD_eq_getElem?_getD, hk]
      · intro i j hi hj
        simpa using hrep.2.2 i j hi hj
    · intro h; cases h

/-- Witness of C7 on a `2 x 2` matrix with the flag set. -/
theorem annualization_spec_witness :
    ([[1, 2], [2, 5]] : List (List ℚ)).length = 2 ∧
      (∀ row ∈ ([[1, 2], [2, 5]] : List (List ℚ)), row.length = 2) ∧
      ∃ mu_ann S_ann, annualization ([3, 4] : List ℚ) [[1, 2], [2, 5]] true =
          some (mu_ann, S_ann) ∧
        (true = true →
          (if true then mu_ann else [3, 4]).length = ([3, 4] : List ℚ).length ∧
          (∀ k, k < ([3, 4] : List ℚ).length →
            (if true then mu_ann else [3, 4])[k]? = some (([3, 4] : List ℚ).getD k 0 * 252)) ∧
          (if true then S_ann else [[1, 2], [2, 5]]).length = 2 ∧
          (∀ row ∈ (if true then S_ann else [[1, 2], [2, 5]]), row.length = 2) ∧
          ∀ i j, i < 2 → j < 2 →
            mget (if true then S_ann else [[1, 2], [2, 5]]) i j =
              some (entry ([[1, 2], [2, 5]] : List (List ℚ)) i j * 252)) ∧
        (true = false →
          (if true then mu_ann else [3, 4]) = [3, 4] ∧
            (if true then S_ann else [[1, 2], [2, 5]]) = [[1, 2], [2, 5]]) :=
  ⟨rfl, by simp, annualization_spec [3, 4] [[1, 2], [2, 5]] 2 true rfl (by simp)⟩

/-- C8: for `w`, `mu`, `S` of matching dimension with `quad w S ≥ 0`, the annualised
values of a trial relate to the native ones for the same `w` by
`ret_ann = 252 * ret_daily`, `var_ann = 252 * var_daily` and
`vol_ann = sqrt 252 * vol_daily` (over the reals, with the real square root). -/
theorem annualized_trial_scaling (w mu : List ℝ) (S : List (List ℝ)) (K : Nat) (rf : ℝ)
    (hw : w.length = K) (hmu : mu.length = K) (hSK : S.length = K)
    (hrows : ∀ row ∈ S, row.length = K) (hvar : ∀ v, quad w S = some v → 0 ≤ v) :
    ∃ mu_ann S_ann rd vd, annualization mu S true = some (mu_ann, S_ann) ∧
      dot w mu = some rd ∧ quad w S = some vd ∧
      dot w mu_ann = some (252 * rd) ∧ quad w S_ann = some (252 * vd) ∧
      ∃ rowA rowD, trial Real.sqrt w mu mu_ann S S_ann rf true = some rowA ∧
        trial Real.sqrt w mu mu_ann S S_ann rf false = some rowD ∧
        rowA.ret = 252 * rowD.ret ∧ rowA.vol = Real.sqrt 252 * rowD.vol := by
  have hS : MRep S K K (entry S) := by
    have := MRep.of_rect S K hrows
    rwa [hSK] at this
  obtain ⟨S_ann, hann, hrep⟩ := annualization_true mu S K _ hS
  obtain ⟨hdot, hquad⟩ := dot_quad_sum w mu S K hw hmu hSK hrows
  obtain ⟨hdotA, hquadA⟩ := dot_quad_sum w (mu.map (fun m => m * 252)) S_ann K hw
    (by simpa using hmu) hrep.1 hrep.2.1
  have hretA : (∑ i in Finset.range K, w.getD i 0 * (mu.map (fun m => m * 252)).getD i 0) =
      252 * ∑ i in Finset.range K, w.getD i 0 * mu.getD i 0 := by
    rw [Finset.mul_sum]
    refine Finset.sum_congr rfl (fun i hi => ?_)
    have hi' : i < mu.length := by rw [hmu]; exact Finset.mem_range.mp hi
    simp only [List.getD_eq_getElem?_getD, List.getElem?_map, List.getElem?_eq_getElem hi',
      Option.map_some', Option.getD_some]
    ring
  have hvarA : (∑ i in Finset.range K,
      w.getD i 0 * ∑ j in Finset.range K, entry S_ann i j * w.getD j 0) =
      252 * ∑ i in Finset.range K,
        w.getD i 0 * ∑ j in Finset.range K, entry S i j * w.getD j 0 := by
    rw [Finset.mul_sum]
    refine Finset.sum_congr rfl (fun i hi => ?_)
    have hin : (∑ j in Finset.range K, entry S_ann i j * w.getD j 0) =
        252 * ∑ j in Finset.range K, entry S i j * w.getD j 0 := by
      rw [Finset.mul_sum]
      apply Finset.sum_congr rfl
      intro j hj
      rw [hrep.entry_eq (Finset.mem_range.mp hi) (Finset.mem_range.mp hj)]
      ring
    rw [hin]
    ring
  rw [hretA] at hdotA
  rw [hvarA] at hquadA
  have hv := hvar _ hquad
  generalize (∑ i in Finset.range K, w.getD i 0 * mu.getD i 0) = rd at hdot hdotA
  generalize (∑ i in Finset.range K,
    w.getD i 0 * ∑ j in Finset.range K, entry S i j * w.getD j 0) = vd at hquad hquadA hv
  have hA : trial Real.sqrt w mu (mu.map (fun m => m * 252)) S S_ann rf true = some
      ⟨(252 * rd - rf) / (Real.sqrt (max (252 * vd) 0) + 1e-12), 252 * rd,
        Real.sqrt (max (252 * vd) 0), w⟩ := by
    simp only [trial, if_true, hdotA, hquadA, Option.bind_eq_bind, Option.some_bind,
      Option.pure_def, zero_lit_eq]
  have hD : trial Real.sqrt w mu (mu.map (fun m => m * 252)) S S_ann rf false = some
      ⟨rd / (Real.sqrt (max vd 0) + 1e-12), rd, Real.sqrt (max vd 0), w⟩ := by
    simp [trial, hdot, hquad, zero_lit_eq]
  refine ⟨_, S_ann, rd, vd, hann, hdot, hquad, hdotA, hquadA, _, _, hA, hD, rfl, ?_⟩
  show Real.sqrt (max (252 * vd) 0) = Real.sqrt 252 * Real.sqrt (max vd 0)
  rw [max_eq_left hv, max_eq_left (mul_nonneg (by norm_num) hv),
    Real.sqrt_mul (by norm_num : (0 : ℝ) ≤ 252)]

/-- Witness of C8 on a single asset with variance 4. -/
theorem annualized_trial_scaling_witness :
    ([1] : List ℝ).length = 1 ∧ ([3] : List ℝ).length = 1 ∧
      ([[4]] : List (List ℝ)).length = 1 ∧ (∀ row ∈ ([[4]] : List (List ℝ)), row.length = 1) ∧
      (∀ v, quad ([1] : List ℝ) [[4]] = some v → 0 ≤ v) ∧
      ∃ mu_ann S_ann rd vd, annualization ([3] : List ℝ) [[4]] true = some (mu_ann, S_ann) ∧
        dot ([1] : List ℝ) [3] = some rd ∧ quad ([1] : List ℝ) [[4]] = some vd ∧
        dot [1] mu_ann = some (252 * rd) ∧ quad [1] S_ann = some (252 * vd) ∧
        ∃ rowA rowD, trial Real.sqrt [1] [3] mu_ann [[4]] S_ann 0 true = some rowA ∧
          trial Real.sqrt [1] [3] mu_ann [[4]] S_ann 0 false = some rowD ∧
          rowA.ret = 252 * rowD.ret ∧ rowA.vol = Real.sqrt 252 * rowD.vol :=
  ⟨rfl, rfl, rfl, by simp, by
      intro v hv
      simp [quad, forLoop, mget] at hv
      rw [← hv]; norm_num,
    annualized_trial_scaling [1] [3] [[4]] 1 0 rfl rfl rfl (by simp) (by
      intro v hv
      simp [quad, forLoop, mget] at hv
      rw [← hv]; norm_num)⟩

/-! ## Positive semi-definiteness of the estimated covariance -/

/-- C6: for a rectangular `T x K` matrix `R` with `T ≥ 2`, `S = cov_mat R (mean_vec R)` and
every vector `w` of length `K`, the portfolio variance `quad w S` is `≥ 0`, so the clamp
`max var 0` leaves it unchanged; every diagonal entry `S[i][i]` is `≥ 0`. -/
theorem cov_quad_nonneg {α : Type} [LinearOrderedField α]
    (R : List (List α)) (T K : Nat) (hT : R.length = T) (h2 : 2 ≤ T)
    (hrect : ∀ row ∈ R, row.length = K) (w : List α) (hw : w.length = K) :
    ∃ mu S var, mean_vec R = some mu ∧ cov_mat R mu = some S ∧ quad w S = some var ∧
      0 ≤ var ∧ max var 0 = var ∧ ∀ i, i < K → ∃ d, mget S i i = some d ∧ 0 ≤ d := by
  subst hT
  have hne : R ≠ [] := by
    intro h; rw [h] at h2; simp at h2
  have hD : (0 : α) ≤ (R.length : α) - 1 := by
    have : (1 : α) ≤ (R.length : α) := by exact_mod_cast (by omega : 1 ≤ R.length)
    linarith
  obtain ⟨mu, hmean, hmu⟩ := mean_vec_rep R K hne hrect
  obtain ⟨S, hcov, hS⟩ := cov_mat_sum R mu K hne hrect hmu.1
  subst hw
  have hquad := quad_rep w S _ _ (VRep.of_list w) hS.2.2
  have hvar : (0 : α) ≤ psum (fun i => w.getD i 0 * psum (fun j =>
      (∑ t in Finset.range R.length,
        (entry R t i - mu.getD i 0) * (entry R t j - mu.getD j 0)) /
          ((R.length : α) - 1) * w.getD j 0) w.length) w.length := by
    rw [psum_eq_sum]
    simp only [psum_eq_sum]
    exact gram_quad_nonneg w.length R.length (fun i => w.getD i 0)
      (fun t i => entry R t i - mu.getD i 0) _ hD
  refine ⟨mu, S, _, hmean, hcov, hquad, hvar, max_eq_left hvar, ?_⟩
  intro i hi
  refine ⟨_, hS.2.2 i i hi hi, ?_⟩
  exact div_nonneg (Finset.sum_nonneg (fun t _ => mul_self_nonneg _)) hD

/-- Witness of C6 with a weight vector that has a negative entry. -/
theorem cov_quad_nonneg_witness :
    ([[1, 2], [3, 5], [5, 6]] : List (List ℚ)).length = 3 ∧ 2 ≤ 3 ∧
      (∀ row ∈ ([[1, 2], [3, 5], [5, 6]] : List (List ℚ)), row.length = 2) ∧
      ([2, -1] : List ℚ).length = 2 ∧
      ∃ mu S var, mean_vec ([[1, 2], [3, 5], [5, 6]] : List (List ℚ)) = some mu ∧
        cov_mat [[1, 2], [3, 5], [5, 6]] mu = some S ∧ quad [2, -1] S = some var ∧
        0 ≤ var ∧ max var 0 = var ∧ ∀ i, i < 2 → ∃ d, mget S i i = some d ∧ 0 ≤ d :=
  ⟨rfl, by decide, by simp, rfl,
    cov_quad_nonneg [[1, 2], [3, 5], [5, 6]] 3 2 rfl (by decide) (by simp) [2, -1] rfl⟩

/-! ## Error handling -/

/-- The values of `dot` and `quad` when `mu` and `S` are at least as large as `w`: only
the leading entries are read. -/
theorem dot_quad_leading {α : Type} [LinearOrderedField α]
    (w m : List α) (C : List (List α))
    (hm : w.length ≤ m.length)
    (hC : ∀ i j, i < w.length → j < w.length → mget C i j = some (entry C i j)) :
    dot w m = some (∑ i in Finset.range w.length, w.getD i 0 * m.getD i 0) ∧
      quad w C = some (∑ i in Finset.range w.length,
        w.getD i 0 * ∑ j in Finset.range w.length, entry C i j * w.getD j 0) := by
  have hmv : ∀ i, i < w.length → m[i]? = some (m.getD i 0) := by
    intro i hi
    exact (VRep.of_list m).2 i (by omega)
  constructor
  · rw [dot_rep w m _ _ (VRep.of_list w) hmv, psum_eq_sum]
  · rw [quad_rep w C _ _ (VRep.of_list w) hC, psum_eq_sum]
    congr 1
    exact Finset.sum_congr rfl (fun i _ => by rw [psum_eq_sum])

theorem mget_eq_entry {α : Type} [Zero α] (C : List (List α)) (n : Nat)
    (hCn : n ≤ C.length) (hrows : ∀ row ∈ C, n ≤ row.length) :
    ∀ i j, i < n → j < n → mget C i j = some (entry C i j) := by
  intro i j hi hj
  have hi' : i < C.length := by omega
  have hj' : j < C[i].length := by
    have := hrows _ (List.getElem_mem hi')
    omega
  simp [mget, entry, hi', List.getD_eq_getElem?_getD, hj']

/-- C9, the claim as stated fails: a weight vector of length 1 against a mean vector of
length 2 and a `2 x 2` covariance matrix is evaluated without any error; the result is
computed from `mu[0]` and `S[0][0]` alone. -/
theorem trial_mismatch_returns :
    ([1] : List ℚ).length ≠ ([2, 3] : List ℚ).length ∧
      ([[1, 0], [0, 1]] : List (List ℚ)).length ≠ ([1] : List ℚ).length ∧
      trial (fun x : ℚ => x) [1] [2, 3] [2, 3] [[1, 0], [0, 1]] [[1, 0], [0, 1]] 0 false =
        some ⟨2 / (1 + 1e-12), 2, 1, [1]⟩ := by
  refine ⟨by decide, by decide, ?_⟩
  simp [trial, dot, quad, forLoop, mget]
  norm_num

/-- C9 as amended: the evaluation has no dimension check.  Whenever `mu` has at least
`length w` entries and `S` has at least `length w` rows of at least `length w` entries
(in particular for equal dimensions), the trial returns a row, every read is inside `mu`
and `S`, and the values are those of the first `length w` entries of `mu` and of the
leading `length w x length w` block of `S`. -/
theorem trial_leading_block {α : Type} [LinearOrderedField α] (sqrt : α → α)
    (w mu mu_ann : List α) (S S_ann : List (List α)) (rf : α) (annualize : Bool)
    (m : List α) (C : List (List α))
    (hm : m = if annualize then mu_ann else mu) (hC : C = if annualize then S_ann else S)
    (hmK : w.length ≤ m.length) (hCK : w.length ≤ C.length)
    (hrows : ∀ row ∈ C, w.length ≤ row.length) :
    ∃ ret var, ret = ∑ i in Finset.range w.length, w.getD i 0 * m.getD i 0 ∧
      var = ∑ i in Finset.range w.length,
        w.getD i 0 * ∑ j in Finset.range w.length, entry C i j * w.getD j 0 ∧
      trial sqrt w mu mu_ann S S_ann rf annualize = some
        { sharpe := (if annualize then ret - rf else ret) / (sqrt (max var 0) + 1e-12)
          ret := ret
          vol := sqrt (max var 0)
          weights := w } := by
  subst hm hC
  obtain ⟨hdot, hquad⟩ := dot_quad_leading w _ _ hmK (mget_eq_entry _ w.length hCK hrows)
  refine ⟨_, _, rfl, rfl, ?_⟩
  simp only [trial, hdot, hquad, Option.bind_eq_bind, Option.some_bind, Option.pure_def,
    zero_lit_eq]

/-- Witness of the amended C9 on the input of the counterexample. -/
theorem trial_leading_block_witness :
    ([2, 3] : List ℚ) = (if false then [2, 3] else [2, 3]) ∧
      ([[1, 0], [0, 1]] : List (List ℚ)) = (if false then [[1, 0], [0, 1]] else [[1, 0], [0, 1]]) ∧
      ([1] : List ℚ).length ≤ ([2, 3] : List ℚ).length ∧
      ([1] : List ℚ).length ≤ ([[1, 0], [0, 1]] : List (List ℚ)).length ∧
      (∀ row ∈ ([[1, 0], [0, 1]] : List (List ℚ)), ([1] : List ℚ).length ≤ row.length) ∧
      ∃ ret var, ret = ∑ i in Finset.range ([1] : List ℚ).length,
          ([1] : List ℚ).getD i 0 * ([2, 3] : List ℚ).getD i 0 ∧
        var = ∑ i in Finset.range ([1] : List ℚ).length, ([1] : List ℚ).getD i 0 *
          ∑ j in Finset.range ([1] : List ℚ).length,
            entry ([[1, 0], [0, 1]] : List (List ℚ)) i j * ([1] : List ℚ).getD j 0 ∧
        trial (fun x : ℚ => x) [1] [2, 3] [2, 3] [[1, 0], [0, 1]] [[1, 0], [0, 1]] 0 false =
          some
            { sharpe := (if false then ret - 0 else ret) / (max var 0 + 1e-12)
              ret := ret
              vol := max var 0
              weights := [1] } :=
  ⟨rfl, rfl, by decide, by decide, by simp,
    trial_leading_block (fun x : ℚ => x) [1] [2, 3] [2, 3] [[1, 0], [0, 1]] [[1, 0], [0, 1]]
      0 false [2, 3] [[1, 0], [0, 1]] rfl rfl (by decide) (by decide) (by simp)⟩

/-- The example of the claim C9, three weights against two means: `dot` reads `mu[2]`,
which does not exist. -/
theorem dot_reads_past_end : dot ([1, 1, 1] : List ℚ) [1, 2] = none := by
  simp [dot, forLoop]

/-- C10, the code at `T = 1`: one data row `1, 2` and `N = 1`.  `mean_vec` and `cov_mat`
both return, `cov_mat` after dividing by `T - 1 = 0`, and `main` runs the trial and
writes one row. -/
theorem main_single_row_runs :
    (∃ mu S, mean_vec ([[1, 2]] : List (List ℚ)) = some mu ∧
      cov_mat ([[1, 2]] : List (List ℚ)) mu = some S ∧ S.length = 2) ∧
    ∃ header rows, main (fun x : ℚ => x) (fun g : Nat => ((g : ℚ) / 10, g + 1)) 0
      ⟨["a", "b"], [[1, 2]]⟩ 1 0 false = some (Exit.success header rows) ∧
        rows.length = 1 := by
  constructor
  · obtain ⟨mu, hmu, hrep⟩ := mean_vec_rep ([[1, 2]] : List (List ℚ)) 2 (by simp) (by simp)
    obtain ⟨S, hS, hSrep⟩ := cov_mat_rep ([[1, 2]] : List (List ℚ)) mu 2 _ (by simp)
      (by simp) hrep
    exact ⟨mu, S, hmu, hS, hSrep.1⟩
  · simp [main, mean_vec, cov_mat, annualization, random_weights, trial, dot, quad,
      forLoop, mget, mset, vset]
    exact ⟨_, _, ⟨rfl, rfl⟩, rfl⟩

/-- The guard of `main` for `T = 0`: with no data row the run ends with exit status 1
before any estimation or trial. -/
theorem main_no_data {α G : Type} [LinearOrderedField α] (sqrt : α → α) (U : G → α × G)
    (rng42 : G) (tickers : List String) (N : Int) (rf : α) (annualize : Bool) :
    main sqrt U rng42 ⟨tickers, []⟩ N rf annualize =
      some (Exit.failure "No data in returns file.") := by
  simp [main]

/-! ## Simulation driver -/

/-- C11: for `N ≥ 0` and valid statistics (a non-empty rectangular matrix with as many
tickers as columns) `main` writes the header and exactly `N` rows in trial order; row `i`
is the evaluation of the weights that `random_weights` draws in the generator state left
by the `i` trials before it, the first one in the state of `rng(42)`; for `N = 0` there is
the header and no row, and no error. -/
theorem main_emits_rows {α G : Type} [LinearOrderedField α] (sqrt : α → α) (U : G → α × G)
    (rng42 : G) (D : Data α) (N : Int) (rf : α) (annualize : Bool) (K : Nat)
    (hN : 0 ≤ N) (hne : D.returns ≠ []) (hrect : ∀ row ∈ D.returns, row.length = K)
    (htick : D.tickers.length = K) :
    ∃ mu S mu_ann S_ann rows,
      mean_vec D.returns = some mu ∧ cov_mat D.returns mu = some S ∧
      annualization mu S annualize = some (mu_ann, S_ann) ∧
      main sqrt U rng42 D N rf annualize =
        some (Exit.success (["sharpe", "ret", "vol"] ++ D.tickers) rows) ∧
      (rows.length : Int) = N ∧
      (∀ i, i < rows.length → ∃ w row,
        random_weights U K (rngAfter U (i * K) rng42) =
          some (w, rngAfter U ((i + 1) * K) rng42) ∧
        trial sqrt w mu mu_ann S S_ann rf annualize = some row ∧ rows[i]? = some row) ∧
      (N = 0 → rows = []) := by
  obtain ⟨mu, S, mu_ann, S_ann, rows, hmean, hcov, hann, _, _, _, _, hmain, hlen, hrows⟩ :=
    main_rep sqrt U rng42 D N rf annualize K hne hrect htick
  refine ⟨mu, S, mu_ann, S_ann, rows, hmean, hcov, hann, hmain, ?_, ?_, ?_⟩
  · rw [hlen]; exact Int.toNat_of_nonneg hN
  · intro i hi
    obtain ⟨w, row, h1, _, h3, _, h5⟩ := hrows i (by omega)
    exact ⟨w, row, h1, h3, h5⟩
  · intro h0
    subst h0
    exact List.length_eq_zero.mp hlen

/-- Witness of C11: two trials on a `3 x 2` matrix of rationals. -/
theorem main_emits_rows_witness :
    (0 : Int) ≤ 2 ∧ ([[1, 2], [3, 5], [5, 6]] : List (List ℚ)) ≠ [] ∧
      (∀ row ∈ ([[1, 2], [3, 5], [5, 6]] : List (List ℚ)), row.length = 2) ∧
      ["a", "b"].length = 2 ∧
      ∃ mu S mu_ann S_ann rows,
        mean_vec ([[1, 2], [3, 5], [5, 6]] : List (List ℚ)) = some mu ∧
        cov_mat ([[1, 2], [3, 5], [5, 6]] : List (List ℚ)) mu = some S ∧
        annualization mu S true = some (mu_ann, S_ann) ∧
        main (fun x : ℚ => x) (fun g : Nat => ((g : ℚ) / 10, g + 1)) 1
            ⟨["a", "b"], [[1, 2], [3, 5], [5, 6]]⟩ 2 (1 / 100) true =
          some (Exit.success (["sharpe", "ret", "vol"] ++ ["a", "b"]) rows) ∧
        (rows.length : Int) = 2 ∧
        (∀ i, i < rows.length → ∃ w row,
          random_weights (fun g : Nat => ((g : ℚ) / 10, g + 1)) 2
              (rngAfter (fun g : Nat => ((g : ℚ) / 10, g + 1)) (i * 2) 1) =
            some (w, rngAfter (fun g : Nat => ((g : ℚ) / 10, g + 1)) ((i + 1) * 2) 1) ∧
          trial (fun x : ℚ => x) w mu mu_ann S S_ann (1 / 100) true = some row ∧
          rows[i]? = some row) ∧
        ((2 : Int) = 0 → rows = []) :=
  ⟨by decide, by simp, by simp, rfl,
    main_emits_rows (fun x : ℚ => x) (fun g : Nat => ((g : ℚ) / 10, g + 1)) 1
      ⟨["a", "b"], [[1, 2], [3, 5], [5, 6]]⟩ 2 (1 / 100) true 2 (by decide) (by simp)
      (by simp) rfl⟩

/-- C12, the claim as stated fails: with `N = -1` the run ends successfully with the
header and no row. -/
theorem main_negative_count_succeeds :
    main (fun x : ℚ => x) (fun g : Nat => ((g : ℚ) / 10, g + 1)) 1
        ⟨["a"], [[1], [3]]⟩ (-1) 0 false =
      some (Exit.success ["sharpe", "ret", "vol", "a"] []) := by
  simp [main, mean_vec, cov_mat, annualization, forLoop, mget, mset, vset]

/-- C12 as amended: `main` does not check the sign of `N`.  For every negative `N` and
valid statistics the loop body never runs and the run ends successfully with the header
and zero rows. -/
theorem main_negative_count {α G : Type} [LinearOrderedField α] (sqrt : α → α)
    (U : G → α × G) (rng42 : G) (D : Data α) (N : Int) (rf : α) (annualize : Bool)
    (K : Nat) (hN : N < 0) (hne : D.returns ≠ [])
    (hrect : ∀ row ∈ D.returns, row.length = K) (htick : D.tickers.length = K) :
    main sqrt U rng42 D N rf annualize =
      some (Exit.success (["sharpe", "ret", "vol"] ++ D.tickers) []) := by
  obtain ⟨mu, S, mu_ann, S_ann, rows, _, _, _, _, _, _, _, hmain, hlen, _⟩ :=
    main_rep sqrt U rng42 D N rf annualize K hne hrect htick
  have h0 : N.toNat = 0 := Int.toNat_eq_zero.mpr (le_of_lt hN)
  rw [h0] at hlen
  rw [hmain, List.length_eq_zero.mp hlen]

/-- Witness of the amended C12 with `N = -3`. -/
theorem main_negative_count_witness :
    (-3 : Int) < 0 ∧ ([[1, 2], [3, 5]] : List (List ℚ)) ≠ [] ∧
      (∀ row ∈ ([[1, 2], [3, 5]] : List (List ℚ)), row.length = 2) ∧
      ["a", "b"].length = 2 ∧
      main (fun x : ℚ => x) (fun g : Nat => ((g : ℚ) / 10, g + 1)) 1
          ⟨["a", "b"], [[1, 2], [3, 5]]⟩ (-3) (1 / 100) true =
        some (Exit.success (["sharpe", "ret", "vol"] ++ ["a", "b"]) []) :=
  ⟨by decide, by simp, by simp, rfl,
    main_negative_count (fun x : ℚ => x) (fun g : Nat => ((g : ℚ) / 10, g + 1)) 1
      ⟨["a", "b"], [[1, 2], [3, 5]]⟩ (-3) (1 / 100) true 2 (by decide) (by simp)
      (by simp) rfl⟩

/-! ## Sampler: zero assets and determinism -/

/-- C13, the claim as stated fails: with `K = 0` the call returns the empty vector. -/
theorem random_weights_zero_returns :
    random_weights (fun g : Nat => ((g : ℚ) / 10, g + 1)) 0 7 = some ([], 7) := by
  simp [random_weights, forLoop]

/-- C13 as amended: `random_weights` has no check on `K`.  For `K = 0` and every
generator state it returns the empty weight vector and leaves the generator state as it
was. -/
theorem random_weights_zero {α G : Type} [LinearOrderedField α] (U : G → α × G) (rng : G) :
    random_weights U 0 rng = some ([], rng) := by
  simp [random_weights, forLoop]

/-- C17: `random_weights` is a function of `K` and the generator state: equal states give
equal weight vectors and equal states afterwards.  Two runs of `main` with the same
number of tickers and the same `N` therefore write the same sequence of weight vectors,
whatever the return data, `rf`, the annualize flag and the square root are. -/
theorem weights_deterministic {α G : Type} [LinearOrderedField α]
    (sqrt1 sqrt2 : α → α) (U : G → α × G) (rng42 : G) (D1 D2 : Data α) (N : Int)
    (rf1 rf2 : α) (a1 a2 : Bool) (K : Nat)
    (hne1 : D1.returns ≠ []) (hrect1 : ∀ row ∈ D1.returns, row.length = K)
    (htick1 : D1.tickers.length = K)
    (hne2 : D2.returns ≠ []) (hrect2 : ∀ row ∈ D2.returns, row.length = K)
    (htick2 : D2.tickers.length = K) :
    (∀ g1 g2 : G, g1 = g2 →
      (random_weights U K g1).map Prod.fst = (random_weights U K g2).map Prod.fst ∧
      (random_weights U K g1).map Prod.snd = (random_weights U K g2).map Prod.snd) ∧
    ∃ h1 rows1 h2 rows2,
      main sqrt1 U rng42 D1 N rf1 a1 = some (Exit.success h1 rows1) ∧
      main sqrt2 U rng42 D2 N rf2 a2 = some (Exit.success h2 rows2) ∧
      rows1.map Row.weights = rows2.map Row.weights := by
  constructor
  · intro g1 g2 h
    subst h
    exact ⟨rfl, rfl⟩
  · obtain ⟨_, _, _, _, rows1, _, _, _, _, _, _, _, hmain1, hlen1, hrows1⟩ :=
      main_rep sqrt1 U rng42 D1 N rf1 a1 K hne1 hrect1 htick1
    obtain ⟨_, _, _, _, rows2, _, _, _, _, _, _, _, hmain2, hlen2, hrows2⟩ :=
      main_rep sqrt2 U rng42 D2 N rf2 a2 K hne2 hrect2 htick2
    refine ⟨_, rows1, _, rows2, hmain1, hmain2, ?_⟩
    apply List.ext_getElem?
    intro i
    by_cases hi : i < N.toNat
    · obtain ⟨w1, row1, hw1, _, _, hrw1, hget1⟩ := hrows1 i hi
      obtain ⟨w2, row2, hw2, _, _, hrw2, hget2⟩ := hrows2 i hi
      rw [hw1] at hw2
      have hw : w1 = w2 := by
        have := Option.some.inj hw2
        exact congrArg Prod.fst this
      simp [List.getElem?_map, hget1, hget2, hrw1, hrw2, hw]
    · have h1 : rows1.length ≤ i := by omega
      have h2 : rows2.length ≤ i := by omega
      simp [List.getElem?_map, List.getElem?_eq_none h1, List.getElem?_eq_none h2]

/-- Witness of C17: two runs on different data, risk-free rates and flags. -/
theorem weights_deterministic_witness :
    ([[1, 2], [3, 5]] : List (List ℚ)) ≠ [] ∧
      (∀ row ∈ ([[1, 2], [3, 5]] : List (List ℚ)), row.length = 2) ∧
      ["a", "b"].length = 2 ∧
      ([[4, 4], [0, 1], [2, 2]] : List (List ℚ)) ≠ [] ∧
      (∀ row ∈ ([[4, 4], [0, 1], [2, 2]] : List (List ℚ)), row.length = 2) ∧
      ["x", "y"].length = 2 ∧
      (∀ g1 g2 : Nat, g1 = g2 →
        (random_weights (fun g : Nat => ((g : ℚ) / 10, g + 1)) 2 g1).map Prod.fst =
          (random_weights (fun g : Nat => ((g : ℚ) / 10, g + 1)) 2 g2).map Prod.fst ∧
        (random_weights (fun g : Nat => ((g : ℚ) / 10, g + 1)) 2 g1).map Prod.snd =
          (random_weights (fun g : Nat => ((g : ℚ) / 10, g + 1)) 2 g2).map Prod.snd) ∧
      ∃ h1 rows1 h2 rows2,
        main (fun x : ℚ => x) (fun g : Nat => ((g : ℚ) / 10, g + 1)) 1
            ⟨["a", "b"], [[1, 2], [3, 5]]⟩ 3 0 false = some (Exit.success h1 rows1) ∧
        main (fun x : ℚ => x * x) (fun g : Nat => ((g : ℚ) / 10, g + 1)) 1
            ⟨["x", "y"], [[4, 4], [0, 1], [2, 2]]⟩ 3 (1 / 50) true =
          some (Exit.success h2 rows2) ∧
        rows1.map Row.weights = rows2.map Row.weights :=
  ⟨by simp, by simp, rfl, by simp, by simp, rfl,
    weights_deterministic (fun x : ℚ => x) (fun x : ℚ => x * x)
      (fun g : Nat => ((g : ℚ) / 10, g + 1)) 1 ⟨["a", "b"], [[1, 2], [3, 5]]⟩
      ⟨["x", "y"], [[4, 4], [0, 1], [2, 2]]⟩ 3 0 (1 / 50) false true 2
      (by simp) (by simp) rfl (by simp) (by simp) rfl⟩

/-! ## Bounds of every element access -/

/-- C18: under the loader contract (non-empty matrix, every row of length `K`, `K`
tickers) no element access of a run is out of range: `mean_vec`, `cov_mat` and the
annualisation block return, from every generator state `random_weights` returns a vector
on which `dot` and `quad` return, and `main` itself returns (never the out-of-range
outcome `none`). -/
theorem accesses_in_bounds {α G : Type} [LinearOrderedField α] (sqrt : α → α)
    (U : G → α × G) (rng42 : G) (D : Data α) (N : Int) (rf : α) (annualize : Bool)
    (K : Nat) (hne : D.returns ≠ []) (hrect : ∀ row ∈ D.returns, row.length = K)
    (htick : D.tickers.length = K) :
    (∃ e, main sqrt U rng42 D N rf annualize = some e) ∧
    ∃ mu S mu_ann S_ann, mean_vec D.returns = some mu ∧ cov_mat D.returns mu = some S ∧
      annualization mu S annualize = some (mu_ann, S_ann) ∧
      ∀ g : G, ∃ w g2, random_weights U D.tickers.length g = some (w, g2) ∧
        (dot w (if annualize then mu_ann else mu)).isSome ∧
        (quad w (if annualize then S_ann else S)).isSome ∧
        (trial sqrt w mu mu_ann S S_ann rf annualize).isSome := by
  obtain ⟨mu, S, mu_ann, S_ann, rows, hmean, hcov, hann, hmu, hmuA, hS, hSA, hmain, _, _⟩ :=
    main_rep sqrt U rng42 D N rf annualize K hne hrect htick
  refine ⟨⟨_, hmain⟩, mu, S, mu_ann, S_ann, hmean, hcov, hann, ?_⟩
  intro g
  rw [htick]
  obtain ⟨w, hw, hwrep⟩ := random_weights_rep U K g
  obtain ⟨row, hrow, _, hdot, hquad⟩ := trial_some sqrt w mu mu_ann S S_ann rf annualize K
    hwrep.1 hmu hmuA hS.1 hS.2 hSA.1 hSA.2
  exact ⟨w, _, hw, by rw [hdot]; rfl, hquad, by rw [hrow]; rfl⟩

/-- Witness of C18 on a `2 x 2` matrix of rationals. -/
theorem accesses_in_bounds_witness :
    ([[1, 2], [3, 5]] : List (List ℚ)) ≠ [] ∧
      (∀ row ∈ ([[1, 2], [3, 5]] : List (List ℚ)), row.length = 2) ∧
      ["a", "b"].length = 2 ∧
      (∃ e, main (fun x : ℚ => x) (fun g : Nat => ((g : ℚ) / 10, g + 1)) 1
        ⟨["a", "b"], [[1, 2], [3, 5]]⟩ 3 0 true = some e) ∧
      ∃ mu S mu_ann S_ann, mean_vec ([[1, 2], [3, 5]] : List (List ℚ)) = some mu ∧
        cov_mat ([[1, 2], [3, 5]] : List (List ℚ)) mu = some S ∧
        annualization mu S true = some (mu_ann, S_ann) ∧
        ∀ g : Nat, ∃ w g2,
          random_weights (fun g : Nat => ((g : ℚ) / 10, g + 1)) ["a", "b"].length g =
            some (w, g2) ∧
          (dot w (if true then mu_ann else mu)).isSome ∧
          (quad w (if true then S_ann else S)).isSome ∧
          (trial (fun x : ℚ => x) w mu mu_ann S S_ann 0 true).isSome :=
  ⟨by simp, by simp, rfl,
    accesses_in_bounds (fun x : ℚ => x) (fun g : Nat => ((g : ℚ) / 10, g + 1)) 1
      ⟨["a", "b"], [[1, 2], [3, 5]]⟩ 3 0 true 2 (by simp) (by simp) rfl⟩

/-! ## Sharpe ratio: denominator and single asset -/

/-- C14: over the reals with the real square root, the Sharpe denominator `vol + 1e-12`
of every row a trial returns is strictly positive and the Sharpe ratio is the numerator
divided by it; against an all-zero covariance matrix `vol = 0` and the Sharpe ratio is
the numerator divided by `1e-12`; for `mu = [0.05, 0.05]`, `w = [0.5, 0.5]`, `rf = 0`
this gives `ret = 0.05`, `vol = 0` and Sharpe `0.05 / 1e-12`. -/
theorem sharpe_denominator_positive (w mu mu_ann : List ℝ) (S S_ann : List (List ℝ))
    (rf : ℝ) (annualize : Bool) :
    (∀ row, trial Real.sqrt w mu mu_ann S S_ann rf annualize = some row →
      0 < row.vol + 1e-12 ∧
      row.sharpe = (if annualize then row.ret - rf else row.ret) / (row.vol + 1e-12)) ∧
    (∀ K, w.length = K → (if annualize then mu_ann else mu).length = K →
      (if annualize then S_ann else S) = List.replicate K (List.replicate K 0) →
      ∃ ret, dot w (if annualize then mu_ann else mu) = some ret ∧
        trial Real.sqrt w mu mu_ann S S_ann rf annualize =
          some ⟨(if annualize then ret - rf else ret) / 1e-12, ret, 0, w⟩) ∧
    trial Real.sqrt [0.5, 0.5] [0.05, 0.05] [0.05, 0.05] [[0, 0], [0, 0]] [[0, 0], [0, 0]]
      0 false = some ⟨0.05 / 1e-12, 0.05, 0, [0.5, 0.5]⟩ := by
  refine ⟨?_, ?_, ?_⟩
  · intro row hrow
    unfold trial at hrow
    cases hd : dot w (if annualize then mu_ann else mu) with
    | none => simp [hd] at hrow
    | some r =>
      cases hq : quad w (if annualize then S_ann else S) with
      | none => simp [hd, hq] at hrow
      | some v =>
        simp only [hd, hq, Option.bind_eq_bind, Option.some_bind, Option.pure_def,
          Option.some.injEq] at hrow
        subst hrow
        exact ⟨add_pos_of_nonneg_of_pos (Real.sqrt_nonneg _) eps12_pos, rfl⟩
  · intro K hw hm hC
    have hCl : (if annualize then S_ann else S).length = K := by rw [hC]; simp
    have hCr : ∀ row ∈ (if annualize then S_ann else S), row.length = K := by
      rw [hC]
      intro row hrow
      rw [List.eq_of_mem_replicate hrow]; simp
    obtain ⟨hdot, hquad⟩ := dot_quad_sum w _ _ K hw hm hCl hCr
    have hzero : (∑ i in Finset.range K, w.getD i 0 *
        ∑ j in Finset.range K, entry (if annualize then S_ann else S) i j * w.getD j 0) = 0 := by
      apply Finset.sum_eq_zero
      intro i hi
      have : (∑ j in Finset.range K,
          entry (if annualize then S_ann else S) i j * w.getD j 0) = 0 := by
        apply Finset.sum_eq_zero
        intro j hj
        rw [hC, (MRep.mreplicate K (0 : ℝ)).entry_eq (Finset.mem_range.mp hi)
          (Finset.mem_range.mp hj), zero_mul]
      rw [this, mul_zero]
    rw [hzero] at hquad
    refine ⟨_, hdot, ?_⟩
    simp only [trial, hdot, hquad, Option.bind_eq_bind, Option.some_bind, Option.pure_def,
      zero_lit_eq, max_self, Real.sqrt_zero, zero_add]
  · simp [trial, dot, quad, forLoop, mget]
    norm_num

/-- Witness of C14: the first part applied to the row of the zero-volatility example. -/
theorem sharpe_denominator_positive_witness :
    trial Real.sqrt [0.5, 0.5] [0.05, 0.05] [0.05, 0.05] [[0, 0], [0, 0]] [[0, 0], [0, 0]]
        0 false = some ⟨0.05 / 1e-12, 0.05, 0, [0.5, 0.5]⟩ ∧
      (0 : ℝ) < (0 : ℝ) + 1e-12 ∧
      (0.05 / 1e-12 : ℝ) = (if false then (0.05 : ℝ) - 0 else 0.05) / (0 + 1e-12) :=
  ⟨(sharpe_denominator_positive [0.5, 0.5] [0.05, 0.05] [0.05, 0.05] [[0, 0], [0, 0]]
      [[0, 0], [0, 0]] 0 false).2.2,
    (sharpe_denominator_positive [0.5, 0.5] [0.05, 0.05] [0.05, 0.05] [[0, 0], [0, 0]]
      [[0, 0], [0, 0]] 0 false).1 ⟨0.05 / 1e-12, 0.05, 0, [0.5, 0.5]⟩
      (sharpe_denominator_positive [0.5, 0.5] [0.05, 0.05] [0.05, 0.05] [[0, 0], [0, 0]]
        [[0, 0], [0, 0]] 0 false).2.2⟩

/-- C15: for `K = 1` and a draw `u ≥ 0`, `random_weights` returns exactly `[1]`; in
annualised mode the trial on that weight with statistics `[m]` and `[[v]]`, `v ≥ 0`,
gives `ret = m`, `vol = sqrt v` and `sharpe = (m - rf) / (sqrt v + 1e-12)`; for
`m = 0.1`, `v = 0.04`, `rf = 0` that is `ret = 0.1`, `vol = 0.2` and a Sharpe ratio
within `1e-6` of `0.5`. -/
theorem single_asset_trial {G : Type} (U : G → ℝ × G) (rng : G) (hU : 0 ≤ (U rng).1) :
    random_weights U 1 rng = some ([1], (U rng).2) ∧
    (∀ (mu : List ℝ) (S : List (List ℝ)) (m v rf : ℝ), 0 ≤ v →
      trial Real.sqrt [1] mu [m] S [[v]] rf true =
        some ⟨(m - rf) / (Real.sqrt v + 1e-12), m, Real.sqrt v, [1]⟩) ∧
    ∃ row, trial Real.sqrt [1] [] [0.1] [] [[0.04]] 0 true = some row ∧
      row.ret = 0.1 ∧ row.vol = 0.2 ∧ |row.sharpe - 0.5| < 1e-6 := by
  have htrial : ∀ (mu : List ℝ) (S : List (List ℝ)) (m v rf : ℝ), 0 ≤ v →
      trial Real.sqrt [1] mu [m] S [[v]] rf true =
        some ⟨(m - rf) / (Real.sqrt v + 1e-12), m, Real.sqrt v, [1]⟩ := by
    intro mu S m v rf hv
    have h0 : max v (0.0 : ℝ) = v := by rw [zero_lit_eq]; exact max_eq_left hv
    simp [trial, dot, quad, forLoop, mget, h0]
  refine ⟨?_, htrial, ?_⟩
  · have hpos : (0 : ℝ) < (U rng).1 + 1e-9 := add_pos_of_nonneg_of_pos hU eps9_pos
    simp [random_weights, forLoop, vset, div_self (ne_of_gt hpos)]
  · refine ⟨_, htrial [] [] 0.1 0.04 0 (by norm_num), rfl, ?_, ?_⟩
    · show Real.sqrt 0.04 = 0.2
      have h : (0.04 : ℝ) = 0.2 ^ 2 := by norm_num
      rw [h, Real.sqrt_sq (by norm_num)]
    · show |(0.1 - 0) / (Real.sqrt 0.04 + 1e-12) - 0.5| < 1e-6
      have h : (0.04 : ℝ) = 0.2 ^ 2 := by norm_num
      rw [h, Real.sqrt_sq (by norm_num), abs_lt]
      constructor <;> norm_num

/-- Witness of C15: a counter as generator, first draw `1/10`. -/
theorem single_asset_trial_witness :
    (0 : ℝ) ≤ ((fun g : Nat => ((g : ℝ) / 10, g + 1)) 1).1 ∧
      random_weights (fun g : Nat => ((g : ℝ) / 10, g + 1)) 1 1 =
        some ([1], ((fun g : Nat => ((g : ℝ) / 10, g + 1)) 1).2) ∧
      (∀ (mu : List ℝ) (S : List (List ℝ)) (m v rf : ℝ), 0 ≤ v →
        trial Real.sqrt [1] mu [m] S [[v]] rf true =
          some ⟨(m - rf) / (Real.sqrt v + 1e-12), m, Real.sqrt v, [1]⟩) ∧
      ∃ row, trial Real.sqrt [1] [] [0.1] [] [[0.04]] 0 true = some row ∧
        row.ret = 0.1 ∧ row.vol = 0.2 ∧ |row.sharpe - 0.5| < 1e-6 :=
  ⟨by norm_num, single_asset_trial (fun g : Nat => ((g : ℝ) / 10, g + 1)) 1 (by norm_num)⟩

/-! ## Bounds on the portfolio return and variance -/

/-- C19: for `K ≥ 1`, the weight vector `w` that `random_weights` returns (draws `≥ 0`)
and every mean vector `mu` of length `K`, the portfolio return `dot w mu` lies between
the smallest and the largest entry of `mu`. -/
theorem dot_between_min_max {α G : Type} [LinearOrderedField α]
    (U : G → α × G) (K : Nat) (rng : G) (hK : 1 ≤ K)
    (hU : ∀ k, k < K → 0 ≤ draw U rng k) (mu : List α) (hmu : mu.length = K) :
    ∃ w g r, random_weights U K rng = some (w, g) ∧ dot w mu = some r ∧
      (Finset.range K).inf' (Finset.nonempty_range_iff.mpr (Nat.one_le_iff_ne_zero.mp hK))
        (fun k => mu.getD k 0) ≤ r ∧
      r ≤ (Finset.range K).sup'
        (Finset.nonempty_range_iff.mpr (Nat.one_le_iff_ne_zero.mp hK))
        (fun k => mu.getD k 0) := by
  obtain ⟨w, hw, hlen, hpos, hsum⟩ := random_weights_convex U K rng hK hU
  have hmv : ∀ i, i < w.length → mu[i]? = some (mu.getD i 0) := by
    intro i hi
    exact (VRep.of_list mu).2 i (by omega)
  have hdot := dot_rep w mu _ _ (VRep.of_list w) hmv
  rw [psum_eq_sum, hlen] at hdot
  refine ⟨w, _, _, hw, hdot, ?_, ?_⟩
  · exact le_convex_comb K _ _ (fun k hk => le_of_lt (hpos k hk)) hsum _
      (fun k hk => Finset.inf'_le _ (Finset.mem_range.mpr hk))
  · exact convex_comb_le K _ _ (fun k hk => le_of_lt (hpos k hk)) hsum _
      (fun k hk => Finset.le_sup' (fun k => mu.getD k 0) (Finset.mem_range.mpr hk))

/-- Witness of C19: three assets, draws `1/10, 2/10, 3/10`. -/
theorem dot_between_min_max_witness :
    1 ≤ 3 ∧ (∀ k, k < 3 → 0 ≤ draw (fun g : Nat => ((g : ℚ) / 10, g + 1)) 1 k) ∧
      ([5, -2, 7] : List ℚ).length = 3 ∧
      ∃ w g r, random_weights (fun g : Nat => ((g : ℚ) / 10, g + 1)) 3 1 = some (w, g) ∧
        dot w [5, -2, 7] = some r ∧
        (Finset.range 3).inf'
          Finset.nonempty_range_succ
          (fun k => ([5, -2, 7] : List ℚ).getD k 0) ≤ r ∧
        r ≤ (Finset.range 3).sup'
          Finset.nonempty_range_succ
          (fun k => ([5, -2, 7] : List ℚ).getD k 0) :=
  ⟨by decide, fun k _ => by simp only [draw]; positivity, rfl,
    dot_between_min_max (fun g : Nat => ((g : ℚ) / 10, g + 1)) 3 1 (by decide)
      (fun k _ => by simp only [draw]; positivity) [5, -2, 7] rfl⟩

/-- C20: for a rectangular `T x K` matrix `R` with `T ≥ 2` and `K ≥ 1`,
`S = cov_mat R (mean_vec R)` and the weight vector `w` that `random_weights` returns
(draws `≥ 0`, so entries `> 0` summing to 1), the portfolio variance is at most the
weighted average of the asset variances, which is at most the largest asset variance:
`quad w S ≤ Σ_i w[i]*S[i][i] ≤ max_i S[i][i]`. -/
theorem quad_le_weighted_variances {α G : Type} [LinearOrderedField α]
    (R : List (List α)) (T K : Nat) (hT : R.length = T) (h2 : 2 ≤ T)
    (hrect : ∀ row ∈ R, row.length = K) (hK : 1 ≤ K)
    (U : G → α × G) (rng : G) (hU : ∀ k, k < K → 0 ≤ draw U rng k) :
    ∃ mu S w g var, mean_vec R = some mu ∧ cov_mat R mu = some S ∧
      random_weights U K rng = some (w, g) ∧ quad w S = some var ∧
      var ≤ ∑ i in Finset.range K, w.getD i 0 * entry S i i ∧
      ∑ i in Finset.range K, w.getD i 0 * entry S i i ≤
        (Finset.range K).sup'
          (Finset.nonempty_range_iff.mpr (Nat.one_le_iff_ne_zero.mp hK))
          (fun i => entry S i i) := by
  subst hT
  have hne : R ≠ [] := by
    intro h; rw [h] at h2; simp at h2
  have hD : (0 : α) ≤ (R.length : α) - 1 := by
    have : (1 : α) ≤ (R.length : α) := by exact_mod_cast (by omega : 1 ≤ R.length)
    linarith
  obtain ⟨mu, hmean, hmu⟩ := mean_vec_rep R K hne hrect
  obtain ⟨S, hcov, hS⟩ := cov_mat_sum R mu K hne hrect hmu.1
  obtain ⟨w, hw, hlen, hpos, hsum⟩ := random_weights_convex U K rng hK hU
  have hnn : ∀ k, k < K → (0 : α) ≤ w.getD k 0 := fun k hk => le_of_lt (hpos k hk)
  have hquad := quad_rep w S _ _ (VRep.of_list w) (by rw [hlen]; exact hS.2.2)
  rw [hlen, psum_eq_sum] at hquad
  simp only [psum_eq_sum] at hquad
  rw [gram_quad_eq] at hquad
  refine ⟨mu, S, w, _, _, hmean, hcov, hw, hquad, ?_, ?_⟩
  · have hdiag : (∑ i in Finset.range K, w.getD i 0 * entry S i i) =
        (∑ t in Finset.range R.length, ∑ i in Finset.range K, w.getD i 0 *
          ((entry R t i - mu.getD i 0) * (entry R t i - mu.getD i 0))) /
            ((R.length : α) - 1) := by
      rw [Finset.sum_comm, Finset.sum_div]
      apply Finset.sum_congr rfl
      intro i hi
      rw [hS.entry_eq (Finset.mem_range.mp hi) (Finset.mem_range.mp hi), ← Finset.mul_sum,
        mul_div_assoc]
    rw [hdiag]
    apply div_le_div_of_nonneg_right _ hD
    apply Finset.sum_le_sum
    intro t _
    exact sq_convex_comb_le K _ _ hnn hsum
  · exact convex_comb_le K _ _ hnn hsum _
      (fun k hk => Finset.le_sup' (fun i => entry S i i) (Finset.mem_range.mpr hk))

/-- Witness of C20: a `3 x 2` matrix and two draws `1/10, 2/10`. -/
theorem quad_le_weighted_variances_witness :
    1 ≤ 2 ∧ ([[1, 2], [3, 5], [5, 6]] : List (List ℚ)).length = 3 ∧ 2 ≤ 3 ∧
      (∀ row ∈ ([[1, 2], [3, 5], [5, 6]] : List (List ℚ)), row.length = 2) ∧
      (∀ k, k < 2 → 0 ≤ draw (fun g : Nat => ((g : ℚ) / 10, g + 1)) 1 k) ∧
      ∃ mu S w g var, mean_vec ([[1, 2], [3, 5], [5, 6]] : List (List ℚ)) = some mu ∧
        cov_mat ([[1, 2], [3, 5], [5, 6]] : List (List ℚ)) mu = some S ∧
        random_weights (fun g : Nat => ((g : ℚ) / 10, g + 1)) 2 1 = some (w, g) ∧
        quad w S = some var ∧
        var ≤ ∑ i in Finset.range 2, w.getD i 0 * entry S i i ∧
        ∑ i in Finset.range 2, w.getD i 0 * entry S i i ≤
          (Finset.range 2).sup'
            Finset.nonempty_range_succ
            (fun i => entry S i i) :=
  ⟨by decide, rfl, by decide, by simp, fun k _ => by simp only [draw]; positivity,
    quad_le_weighted_variances [[1, 2], [3, 5], [5, 6]] 3 2 rfl (by decide) (by simp)
      (by decide) (fun g : Nat => ((g : ℚ) / 10, g + 1)) 1
      (fun k _ => by simp only [draw]; positivity)⟩

/-! ## The CSV loader -/

theorem getlines_cell_delim (d : Char) (rest : List Char) :
    ∀ cell : List Char, (∀ x ∈ cell, x ≠ d) →
      getlines d (cell ++ d :: rest) = cell :: getlines d rest := by
  intro cell
  induction cell with
  | nil => intro _; simp [getlines]
  | cons x xs ih =>
    intro h
    have hx : x ≠ d := h x (List.mem_cons_self _ _)
    have hxs : ∀ y ∈ xs, y ≠ d := fun y hy => h y (List.mem_cons_of_mem _ hy)
    rw [List.cons_append, getlines.eq_2, if_neg hx, ih hxs]

theorem getlines_last_cell (d : Char) :
    ∀ cell : List Char, (∀ x ∈ cell, x ≠ d) → cell ≠ [] → getlines d cell = [cell] := by
  intro cell
  induction cell with
  | nil => intro _ h; exact absurd rfl h
  | cons x xs ih =>
    intro h _
    have hx : x ≠ d := h x (List.mem_cons_self _ _)
    have hxs : ∀ y ∈ xs, y ≠ d := fun y hy => h y (List.mem_cons_of_mem _ hy)
    cases xs with
    | nil => simp [getlines, hx]
    | cons y ys => rw [getlines.eq_2, if_neg hx, ih hxs (List.cons_ne_nil _ _)]

/-- What repeated `getline` returns on a line of cells: all the cells, except that an
empty last cell is not returned. -/
theorem getlines_joinCells (d : Char) :
    ∀ cells : List (List Char), (∀ c ∈ cells, ∀ x ∈ c, x ≠ d) →
      getlines d (joinCells d cells) =
        if cells.getLast? = some [] then cells.dropLast else cells := by
  intro cells
  induction cells with
  | nil => intro _; simp [joinCells, getlines]
  | cons c cs ih =>
    intro h
    have hc : ∀ x ∈ c, x ≠ d := h c (List.mem_cons_self _ _)
    have hcs : ∀ c2 ∈ cs, ∀ x ∈ c2, x ≠ d := fun c2 h2 => h c2 (List.mem_cons_of_mem _ h2)
    cases cs with
    | nil =>
      by_cases hce : c = []
      · subst hce; simp [joinCells, getlines]
      · simp [joinCells, getlines_last_cell d c hc hce, hce]
    | cons c2 cs2 =>
      rw [joinCells, getlines_cell_delim d _ c hc, ih hcs]
      simp only [List.getLast?_cons_cons, List.dropLast_cons₂]
      split <;> rfl

theorem mapM_except_ok {β γ : Type} (f : β → Except String γ) (g : β → γ) :
    ∀ l : List β, (∀ c ∈ l, f c = .ok (g c)) → l.mapM f = .ok (l.map g) := by
  intro l
  induction l with
  | nil => intro _; rfl
  | cons a as ih =>
    intro h
    rw [List.mapM_cons, h a (List.mem_cons_self _ _),
      ih (fun c hc => h c (List.mem_cons_of_mem _ hc))]
    rfl

/-- The row `read_row` returns for a line made of a date cell and further cells without
commas, when `stod` parses every non-empty cell `c` to `val c`: one value per cell, `0`
for an empty cell, except that an empty last cell gives no value. -/
theorem read_row_cells {α : Type} [Zero α] (stod : String → Except String α)
    (val : List Char → α) (date : List Char) (cells : List (List Char))
    (hdate : ∀ x ∈ date, x ≠ ',') (hcells : ∀ c ∈ cells, ∀ x ∈ c, x ≠ ',')
    (hstod : ∀ c ∈ cells, c ≠ [] → stod (String.mk c) = .ok (val c)) :
    read_row stod (joinCells ',' (date :: cells)) =
      .ok ((if cells.getLast? = some [] then cells.dropLast else cells).map
        (fun c => if c = [] then 0 else val c)) := by
  have hall : ∀ c ∈ date :: cells, ∀ x ∈ c, x ≠ ',' := by
    intro c hc
    rcases List.mem_cons.mp hc with h | h
    · rw [h]; exact hdate
    · exact hcells c h
  have hdrop : ((getlines ',' (joinCells ',' (date :: cells))).drop 1) =
      if cells.getLast? = some [] then cells.dropLast else cells := by
    rw [getlines_joinCells ',' _ hall]
    cases cells with
    | nil => by_cases hd : date = [] <;> simp [hd]
    | cons c cs =>
      simp only [List.getLast?_cons_cons, List.dropLast_cons₂]
      split <;> rfl
  rw [read_row, hdrop]
  apply mapM_except_ok
  intro c hc
  have hmem : c ∈ cells := by
    split at hc
    · exact List.mem_of_mem_dropLast hc
    · exact hc
  by_cases hce : c = []
  · subst hce; rfl
  · simp [hce, hstod c hmem hce]

/-- C16, the code on the line of the claim: with the header `date,a,b` the line
`2020-01-01,0.1,` is read as the single value `0.1`, a row of length 1 under 2 tickers;
the empty last cell gives no value, while the empty middle cell of `2020-01-01,,0.2` does
give `0`.  On the loaded data `main` with one trial reads `mu[1]`, which does not
exist. -/
theorem read_returns_csv_trailing_empty_cell :
    read_row (fun s => if s = "0.1" then .ok (1 / 10 : ℚ) else
        if s = "0.2" then .ok (1 / 5) else .error "stod") "2020-01-01,0.1,".toList =
      .ok [1 / 10] ∧
    read_row (fun s => if s = "0.1" then .ok (1 / 10 : ℚ) else
        if s = "0.2" then .ok (1 / 5) else .error "stod") "2020-01-01,,0.2".toList =
      .ok [0, 1 / 5] ∧
    read_returns_csv (fun s => if s = "0.1" then .ok (1 / 10 : ℚ) else
        if s = "0.2" then .ok (1 / 5) else .error "stod") "date,a,b\n2020-01-01,0.1,\n" =
      some (.ok ⟨["a", "b"], [[1 / 10]]⟩) ∧
    main (fun x : ℚ => x) (fun g : Nat => ((g : ℚ) / 10, g + 1)) 0
      ⟨["a", "b"], [[1 / 10]]⟩ 1 0 false = none := by
  refine ⟨rfl, rfl, rfl, ?_⟩
  simp [main, mean_vec, cov_mat, annualization, random_weights, trial, dot, quad,
    forLoop, mget, mset, vset]


end PortfolioSim
